import Mathlib

/-!
Verification of the core data-movement subsystem of the yande_viewer
repository: LRU caches (src/core/cache.py), the download manager
(src/core/download_manager.py), the preloader priority queue
(src/core/preloader.py), the URL validator and filename sanitizer
(src/utils/security.py), and the atomic JSON store (src/utils/helpers.py).

Python dicts / OrderedDicts are embedded as association lists in insertion
order (head = oldest entry), Python ints as Int / Nat, and stateful methods
as pure state-passing functions.
-/

/-! ## Association-list helpers (model of Python dict / OrderedDict) -/

/-- `lookupA l k` — `l[k]` / `l.get(k)` on an association list. -/
def lookupA {α : Type} : List (String × α) → String → Option α
  | [], _ => none
  | (k', v) :: rest, k => if k' = k then some v else lookupA rest k

/-- `l.get(k, d)` — lookup with a default. -/
def lookupD {α : Type} (l : List (String × α)) (k : String) (d : α) : α :=
  (lookupA l k).getD d

/-- Remove every entry with key `k` (models `dict.pop(k)` / deletion;
on a dict the key occurs at most once). -/
def eraseA {α : Type} (l : List (String × α)) (k : String) : List (String × α) :=
  l.filter (fun e => e.1 ≠ k)

/-- `k in l` — key membership. -/
def containsKey {α : Type} (l : List (String × α)) (k : String) : Bool :=
  l.any (fun e => e.1 = k)

/-- `l[k] = v` on a plain dict: update in place if present, else append. -/
def setA {α : Type} : List (String × α) → String → α → List (String × α)
  | [], k, v => [(k, v)]
  | (k', v') :: rest, k, v =>
    if k' = k then (k, v) :: rest else (k', v') :: setA rest k v

theorem eraseA_cons_eq {α : Type} (ek : String) (ev : α) (rest : List (String × α))
    (k : String) (h : ek = k) : eraseA ((ek, ev) :: rest) k = eraseA rest k := by
  simp [eraseA, List.filter_cons, h]

theorem eraseA_cons_ne {α : Type} (ek : String) (ev : α) (rest : List (String × α))
    (k : String) (h : ¬ ek = k) :
    eraseA ((ek, ev) :: rest) k = (ek, ev) :: eraseA rest k := by
  simp [eraseA, List.filter_cons, h]

theorem lookupA_eraseA {α : Type} (l : List (String × α)) (k k' : String)
    (h : k' ≠ k) : lookupA (eraseA l k) k' = lookupA l k' := by
  induction l with
  | nil => rfl
  | cons e rest ih =>
    obtain ⟨ek, ev⟩ := e
    by_cases hk : ek = k
    · rw [eraseA_cons_eq ek ev rest k hk, ih, lookupA,
        if_neg (by rw [hk]; exact fun hh => h hh.symm)]
    · rw [eraseA_cons_ne ek ev rest k hk, lookupA, lookupA, ih]

theorem lookupA_setA_ne {α : Type} (l : List (String × α)) (k k' : String)
    (v : α) (h : k' ≠ k) : lookupA (setA l k v) k' = lookupA l k' := by
  induction l with
  | nil =>
    show lookupA [(k, v)] k' = none
    rw [lookupA, if_neg (fun hh => h hh.symm)]; rfl
  | cons e rest ih =>
    obtain ⟨ek, ev⟩ := e
    by_cases hk : ek = k
    · rw [setA, if_pos hk, lookupA, lookupA,
        if_neg (fun hh => h hh.symm), if_neg (by rw [hk]; exact fun hh => h hh.symm)]
    · rw [setA, if_neg hk, lookupA, lookupA, ih]

theorem lookupA_setA_eq {α : Type} (l : List (String × α)) (k : String)
    (v : α) : lookupA (setA l k v) k = some v := by
  induction l with
  | nil => simp [setA, lookupA]
  | cons e rest ih =>
    obtain ⟨ek, ev⟩ := e
    by_cases hk : ek = k
    · rw [setA, if_pos hk, lookupA, if_pos rfl]
    · rw [setA, if_neg hk, lookupA, if_neg hk, ih]

theorem keys_eraseA {α : Type} (l : List (String × α)) (k k' : String) :
    k' ∈ (eraseA l k).map Prod.fst → k' ∈ l.map Prod.fst ∧ k' ≠ k := by
  induction l with
  | nil => simp [eraseA]
  | cons e rest ih =>
    obtain ⟨ek, ev⟩ := e
    by_cases hk : ek = k
    · rw [eraseA_cons_eq ek ev rest k hk]
      intro h
      have := ih h
      simp only [List.map_cons, List.mem_cons]
      tauto
    · rw [eraseA_cons_ne ek ev rest k hk]
      intro h
      simp only [List.map_cons, List.mem_cons] at h ⊢
      rcases h with h | h
      · exact ⟨Or.inl h, h ▸ hk⟩
      · have := ih h
        tauto

theorem nodup_keys_eraseA {α : Type} (l : List (String × α)) (k : String)
    (h : (l.map Prod.fst).Nodup) : ((eraseA l k).map Prod.fst).Nodup := by
  induction l with
  | nil => simp [eraseA]
  | cons e rest ih =>
    obtain ⟨ek, ev⟩ := e
    simp only [List.map_cons, List.nodup_cons] at h
    by_cases hk : ek = k
    · rw [eraseA_cons_eq ek ev rest k hk]
      exact ih h.2
    · rw [eraseA_cons_ne ek ev rest k hk]
      simp only [List.map_cons, List.nodup_cons]
      exact ⟨fun hm => h.1 ((keys_eraseA rest k ek hm).1), ih h.2⟩

/-! ## LRUCache (src/core/cache.py, class LRUCache)

The cache is an `OrderedDict` embedded as an association list with the
least-recently-used entry at the head.  `move_to_end` is modelled by
erase-then-append.  `_safe_close` on evicted values is a no-op in the model
(values carry no resources). -/

/-- `LRUCache.get`: on hit move the entry to the MRU end and return it. -/
def lruGet {α : Type} (cache : List (String × α)) (k : String) :
    Option α × List (String × α) :=
  match lookupA cache k with
  | some v => (some v, eraseA cache k ++ [(k, v)])
  | none => (none, cache)

/-- Eviction loop of `LRUCache.put`: `while len(self._cache) > self._maxsize:
popitem(last=False)`. -/
def evictCount {α : Type} (maxsize : Nat) : List (String × α) → List (String × α)
  | [] => []
  | e :: rest =>
    if rest.length + 1 > maxsize then evictCount maxsize rest else e :: rest

/-- `LRUCache.put`: move-to-end / insert, then evict from the LRU end. -/
def lruPut {α : Type} (maxsize : Nat) (cache : List (String × α))
    (k : String) (v : α) : List (String × α) :=
  let cache1 := if containsKey cache k
    then eraseA cache k ++ [(k, v)]
    else cache ++ [(k, v)]
  evictCount maxsize cache1

/-! ## MemoryAwareLRUCache (src/core/cache.py, class MemoryAwareLRUCache)

State: the ordered cache, the `_item_sizes` dict, and `_current_memory`
(a Python int, so modelled as `Int`).  The size function is a parameter
(`size_func`); computed sizes are byte counts (`Nat`). -/

structure MState (α : Type) where
  cache : List (String × α)
  itemSizes : List (String × Nat)
  currentMemory : Int

/-- Initial state of a fresh `MemoryAwareLRUCache`. -/
def mInit (α : Type) : MState α := ⟨[], [], 0⟩

/-- Eviction loop of `MemoryAwareLRUCache.put`:
`while len > maxsize or mem > max_memory: if not cache: break; popitem`. -/
def mEvict {α : Type} (maxsize maxMemory : Nat) :
    List (String × α) → List (String × Nat) → Int →
    List (String × α) × List (String × Nat) × Int
  | [], sizes, mem => ([], sizes, mem)
  | (k, v) :: rest, sizes, mem =>
    if rest.length + 1 > maxsize ∨ mem > (maxMemory : Int) then
      mEvict maxsize maxMemory rest (eraseA sizes k) (mem - Int.ofNat (lookupD sizes k 0))
    else ((k, v) :: rest, sizes, mem)

/-- `MemoryAwareLRUCache.put`. -/
def mPut {α : Type} (maxsize maxMemory : Nat) (sizeF : α → Nat)
    (s : MState α) (k : String) (v : α) : MState α :=
  let itemSize := sizeF v
  let mem1 : Int := if containsKey s.cache k
    then s.currentMemory - Int.ofNat (lookupD s.itemSizes k 0)
    else s.currentMemory
  let cache1 := if containsKey s.cache k
    then eraseA s.cache k ++ [(k, v)]
    else s.cache ++ [(k, v)]
  let sizes1 := setA s.itemSizes k itemSize
  let mem2 := mem1 + Int.ofNat itemSize
  let r := mEvict maxsize maxMemory cache1 sizes1 mem2
  ⟨r.1, r.2.1, r.2.2⟩

/-- Fold a sequence of puts from the fresh cache. -/
def mRun {α : Type} (maxsize maxMemory : Nat) (sizeF : α → Nat)
    (ops : List (String × α)) : MState α :=
  ops.foldl (fun s p => mPut maxsize maxMemory sizeF s p.1 p.2) (mInit α)

/-- The byte total recorded for the entries currently in the cache. -/
def memSum {α : Type} (cache : List (String × α)) (sizes : List (String × Nat)) : Int :=
  (cache.map (fun e => Int.ofNat (lookupD sizes e.1 0))).sum

theorem containsKey_iff {α : Type} (l : List (String × α)) (k : String) :
    containsKey l k = true ↔ k ∈ l.map Prod.fst := by
  induction l with
  | nil => simp [containsKey]
  | cons e rest ih =>
    simp only [containsKey, List.any_cons, List.map_cons, List.mem_cons,
      Bool.or_eq_true, decide_eq_true_eq] at ih ⊢
    constructor
    · rintro (h | h)
      · exact Or.inl h.symm
      · exact Or.inr (ih.mp h)
    · rintro (h | h)
      · exact Or.inl h.symm
      · exact Or.inr (ih.mpr h)

theorem eraseA_of_not_mem {α : Type} (l : List (String × α)) (k : String)
    (h : k ∉ l.map Prod.fst) : eraseA l k = l := by
  induction l with
  | nil => rfl
  | cons e rest ih =>
    obtain ⟨ek, ev⟩ := e
    simp only [List.map_cons, List.mem_cons] at h
    push_neg at h
    rw [eraseA_cons_ne ek ev rest k (fun hh => h.1 hh.symm), ih h.2]

theorem memSum_append {α : Type} (l1 l2 : List (String × α))
    (sizes : List (String × Nat)) :
    memSum (l1 ++ l2) sizes = memSum l1 sizes + memSum l2 sizes := by
  simp [memSum, List.map_append, List.sum_append]

theorem memSum_setA_ne {α : Type} (l : List (String × α)) (k : String) (n : Nat)
    (sizes : List (String × Nat)) (h : ∀ e ∈ l, e.1 ≠ k) :
    memSum l (setA sizes k n) = memSum l sizes := by
  induction l with
  | nil => rfl
  | cons e rest ih =>
    simp only [memSum, List.map_cons, List.sum_cons] at ih ⊢
    rw [ih (fun e he => h e (List.mem_cons_of_mem _ he))]
    have : lookupD (setA sizes k n) e.1 0 = lookupD sizes e.1 0 := by
      unfold lookupD
      rw [lookupA_setA_ne sizes k e.1 n (h e (List.mem_cons_self _ _))]
    rw [this]

theorem memSum_eraseA_ne {α : Type} (l : List (String × α)) (k : String)
    (sizes : List (String × Nat)) (h : ∀ e ∈ l, e.1 ≠ k) :
    memSum l (eraseA sizes k) = memSum l sizes := by
  induction l with
  | nil => rfl
  | cons e rest ih =>
    simp only [memSum, List.map_cons, List.sum_cons] at ih ⊢
    rw [ih (fun e he => h e (List.mem_cons_of_mem _ he))]
    have : lookupD (eraseA sizes k) e.1 0 = lookupD sizes e.1 0 := by
      unfold lookupD
      rw [lookupA_eraseA sizes k e.1 (h e (List.mem_cons_self _ _))]
    rw [this]

theorem memSum_cons {α : Type} (k : String) (v : α) (rest : List (String × α))
    (sizes : List (String × Nat)) :
    memSum ((k, v) :: rest) sizes =
      Int.ofNat (lookupD sizes k 0) + memSum rest sizes := by
  simp [memSum]

theorem memSum_erase_mem {α : Type} (l : List (String × α)) (k : String)
    (sizes : List (String × Nat)) (hnd : (l.map Prod.fst).Nodup)
    (hm : k ∈ l.map Prod.fst) :
    memSum l sizes = memSum (eraseA l k) sizes + Int.ofNat (lookupD sizes k 0) := by
  induction l with
  | nil => simp at hm
  | cons e rest ih =>
    obtain ⟨ek, ev⟩ := e
    simp only [List.map_cons, List.nodup_cons] at hnd
    simp only [List.map_cons, List.mem_cons] at hm
    by_cases hk : ek = k
    · subst hk
      rw [eraseA_cons_eq ek ev rest ek rfl, eraseA_of_not_mem rest ek hnd.1,
        memSum_cons]
      ring
    · rcases hm with hm | hm
      · exact absurd hm.symm hk
      · rw [eraseA_cons_ne ek ev rest k hk, memSum_cons, memSum_cons,
          ih hnd.2 hm]
        ring

/-- Invariant of the memory-aware cache state: keys are unique and
`_current_memory` equals the recorded byte total of present entries. -/
def MInv {α : Type} (s : MState α) : Prop :=
  (s.cache.map Prod.fst).Nodup ∧ s.currentMemory = memSum s.cache s.itemSizes

theorem mEvict_spec {α : Type} (N B : Nat) :
    ∀ (cache : List (String × α)) (sizes : List (String × Nat)) (mem : Int),
    mem = memSum cache sizes → (cache.map Prod.fst).Nodup →
    ((mEvict N B cache sizes mem).2.2 =
        memSum (mEvict N B cache sizes mem).1 (mEvict N B cache sizes mem).2.1) ∧
    ((mEvict N B cache sizes mem).1.map Prod.fst).Nodup ∧
    (mEvict N B cache sizes mem).1.length ≤ N ∧
    (mEvict N B cache sizes mem).2.2 ≤ (B : Int) := by
  intro cache
  induction cache with
  | nil =>
    intro sizes mem hmem _
    simp only [mEvict]
    refine ⟨hmem, by simp, by simp, ?_⟩
    rw [hmem]
    show memSum ([] : List (String × α)) sizes ≤ (B : Int)
    simp [memSum]
  | cons e rest ih =>
    intro sizes mem hmem hnd
    obtain ⟨ek, ev⟩ := e
    simp only [List.map_cons, List.nodup_cons] at hnd
    simp only [mEvict]
    by_cases hc : rest.length + 1 > N ∨ mem > (B : Int)
    · rw [if_pos hc]
      apply ih
      · rw [memSum_eraseA_ne rest ek sizes
          (fun e he => fun hh => hnd.1 (hh ▸ List.mem_map_of_mem Prod.fst he)),
          hmem, memSum_cons]
        ring
      · exact hnd.2
    · rw [if_neg hc]
      push_neg at hc
      exact ⟨hmem, List.nodup_cons.mpr ⟨hnd.1, hnd.2⟩, by simpa using hc.1, hc.2⟩

theorem mPut_spec {α : Type} (N B : Nat) (sizeF : α → Nat) (s : MState α)
    (k : String) (v : α) (hinv : MInv s) :
    MInv (mPut N B sizeF s k v) ∧
    (mPut N B sizeF s k v).cache.length ≤ N ∧
    (mPut N B sizeF s k v).currentMemory ≤ (B : Int) := by
  obtain ⟨hnd, hmem⟩ := hinv
  unfold mPut
  by_cases hck : containsKey s.cache k = true
  · have hkmem : k ∈ s.cache.map Prod.fst := (containsKey_iff _ _).mp hck
    simp only [hck, if_pos]
    have hkeys : ∀ e ∈ eraseA s.cache k, e.1 ≠ k :=
      fun e he => (keys_eraseA s.cache k e.1 (List.mem_map_of_mem Prod.fst he)).2
    have hsingle : memSum [(k, v)] (setA s.itemSizes k (sizeF v)) =
        Int.ofNat (sizeF v) := by
      simp [memSum, lookupD, lookupA_setA_eq]
    have hmem2 : s.currentMemory - Int.ofNat (lookupD s.itemSizes k 0) +
        Int.ofNat (sizeF v) =
        memSum (eraseA s.cache k ++ [(k, v)]) (setA s.itemSizes k (sizeF v)) := by
      rw [memSum_append, memSum_setA_ne _ _ _ _ hkeys, hsingle, hmem,
        memSum_erase_mem s.cache k s.itemSizes hnd hkmem]
      ring
    have hnd2 : ((eraseA s.cache k ++ [(k, v)]).map Prod.fst).Nodup := by
      rw [List.map_append]
      apply List.Nodup.append (nodup_keys_eraseA s.cache k hnd) (by simp)
      intro a ha hb
      simp only [List.map_cons, List.map_nil, List.mem_singleton] at hb
      exact (keys_eraseA s.cache k a ha).2 hb
    have h := mEvict_spec N B (eraseA s.cache k ++ [(k, v)])
      (setA s.itemSizes k (sizeF v))
      (s.currentMemory - Int.ofNat (lookupD s.itemSizes k 0) + Int.ofNat (sizeF v))
      hmem2 hnd2
    exact ⟨⟨h.2.1, h.1⟩, h.2.2.1, h.2.2.2⟩
  · have hkmem : k ∉ s.cache.map Prod.fst := by
      intro hm
      exact hck ((containsKey_iff _ _).mpr hm)
    simp only [hck]
    simp only [Bool.false_eq_true, if_false]
    have hkeys : ∀ e ∈ s.cache, e.1 ≠ k :=
      fun e he hh => hkmem (hh ▸ List.mem_map_of_mem Prod.fst he)
    have hmem2 : s.currentMemory + Int.ofNat (sizeF v) =
        memSum (s.cache ++ [(k, v)]) (setA s.itemSizes k (sizeF v)) := by
      rw [memSum_append, memSum_setA_ne _ _ _ _ hkeys]
      have hsingle : memSum [(k, v)] (setA s.itemSizes k (sizeF v)) =
          Int.ofNat (sizeF v) := by
        simp [memSum, lookupD, lookupA_setA_eq]
      rw [hsingle, hmem]
    have hnd2 : ((s.cache ++ [(k, v)]).map Prod.fst).Nodup := by
      rw [List.map_append]
      apply List.Nodup.append hnd (by simp)
      intro a ha hb
      simp only [List.map_cons, List.map_nil, List.mem_singleton] at hb
      exact hkmem (hb ▸ ha)
    have h := mEvict_spec N B (s.cache ++ [(k, v)])
      (setA s.itemSizes k (sizeF v)) (s.currentMemory + Int.ofNat (sizeF v))
      hmem2 hnd2
    exact ⟨⟨h.2.1, h.1⟩, h.2.2.1, h.2.2.2⟩

theorem mRun_inv {α : Type} (N B : Nat) (sizeF : α → Nat)
    (ops : List (String × α)) : MInv (mRun N B sizeF ops) := by
  have general : ∀ (l : List (String × α)) (s : MState α), MInv s →
      MInv (l.foldl (fun s p => mPut N B sizeF s p.1 p.2) s) := by
    intro l
    induction l with
    | nil => intro s hs; exact hs
    | cons p rest ih =>
      intro s hs
      exact ih _ (mPut_spec N B sizeF s p.1 p.2 hs).1
  exact general ops (mInit α) ⟨by simp [mInit], by simp [mInit, memSum]⟩

/-- Claim C1 (amended): after any `MemoryAwareLRUCache.put` returns — at the
end of an arbitrary put sequence — the entry count is at most `N` and the
recorded byte total is at most `B`, unconditionally: there is no exception
for an oversized single value (such a value is evicted by the same put). -/
theorem mem_lru_put_within_budget {α : Type} (sizeF : α → Nat) (N B : Nat)
    (ops : List (String × α)) (k : String) (v : α) :
    (mPut N B sizeF (mRun N B sizeF ops) k v).cache.length ≤ N ∧
    (mPut N B sizeF (mRun N B sizeF ops) k v).currentMemory ≤ (B : Int) := by
  have h := mPut_spec N B sizeF (mRun N B sizeF ops) k v (mRun_inv N B sizeF ops)
  exact ⟨h.2.1, h.2.2⟩

/-- Claim C1 counterexample: on a `MemoryAwareLRUCache(maxsize=2,
max_memory=10 bytes, size_func=id)`, putting a single value of computed
size 11 (which exceeds the byte budget) leaves the cache EMPTY — the
eviction loop pops the just-inserted value — not with that value as the
sole entry as the claim states. -/
theorem mem_lru_oversized_not_sole_entry :
    (mPut 2 10 id (mInit Nat) "a" 11).cache = [] ∧
    (mPut 2 10 id (mInit Nat) "a" 11).cache ≠ [("a", 11)] := by
  constructor
  · rfl
  · decide

/-! ## Claim C6: the capacity-3 LRU scenario (src/core/cache.py, LRUCache) -/

/-- The scenario `put(A,a); put(B,b); put(C,c); get(A); put(D,d)` on an
`LRUCache(maxsize=3)`; values are 1,2,3,4.  Returns the `get` result and the
final cache (association list, least-recently-used first). -/
def lruScenario : Option Nat × List (String × Nat) :=
  let c1 := lruPut 3 [] "A" 1
  let c2 := lruPut 3 c1 "B" 2
  let c3 := lruPut 3 c2 "C" 3
  let g := lruGet c3 "A"
  let c5 := lruPut 3 g.2 "D" 4
  (g.1, c5)

/-- Claim C6 counterexample: the scenario's final internal order
(least-recently-used first) is `C, A, D`, so the recency order is `D, A, C`
from most recent and `C, A, D` from least recent — under neither reading is
it `A, D, C` as the claim states. -/
theorem lru_scenario_recency_order_mismatch :
    (lruScenario.2.map Prod.fst = ["C", "A", "D"]) ∧
    lruScenario.2.map Prod.fst ≠ ["A", "D", "C"] ∧
    (lruScenario.2.map Prod.fst).reverse ≠ ["A", "D", "C"] := by
  refine ⟨rfl, by decide, by decide⟩

/-- Claim C6 (amended): the scenario leaves exactly the keys A, D, C in the
cache with B evicted; the recency order from most- to least-recently used is
D, A, C (internally the cache holds C, A, D oldest-first), and the `get(A)`
was a hit. -/
theorem lru_scenario_final_state :
    (lruScenario.2.map Prod.fst).reverse = ["D", "A", "C"] ∧
    "B" ∉ lruScenario.2.map Prod.fst ∧
    lruScenario.1 = some 1 := by
  refine ⟨rfl, by decide, rfl⟩

/-! ## Decimal representation of Python ints (`str(n)` / `repr(n)`) -/

/-- Decimal digits of a natural number, most significant first.  The loop
divides by 10, so a fuel of `n` itself is enough; when the fuel runs out
`n = 0`, which is the single-digit case anyway. -/
def natToCharsAux : Nat → Nat → List Char
  | 0, n => [Char.ofNat (48 + n)]
  | fuel + 1, n =>
    if n < 10 then [Char.ofNat (48 + n)]
    else natToCharsAux fuel (n / 10) ++ [Char.ofNat (48 + n % 10)]

def natToChars (n : Nat) : List Char := natToCharsAux n n

/-- `str(n)` for a Python int. -/
def intRepr (n : Int) : String :=
  if n < 0 then "-" ++ String.mk (natToChars (-n).toNat)
  else String.mk (natToChars n.toNat)

/-! ## SafePath.sanitize_filename (src/utils/security.py)

`ILLEGAL_CHARS = frozenset('\/:*?"<>|')` — backslash, slash, colon, star,
question mark, double quote, angle brackets, pipe. -/

def illegalChars : List Char := ['\\', '/', ':', '*', '?', '"', '<', '>', '|']

/-- The character filter of `sanitize_filename`:
`32 <= ord(c) < 127 and c not in ILLEGAL_CHARS`. -/
def sanitizeKeep (c : Char) : Bool :=
  decide (32 ≤ c.toNat) && decide (c.toNat < 127) && decide (c ∉ illegalChars)

/-- `str.strip(chars)`: remove leading and trailing characters of `set`. -/
def stripChars (cs : List Char) (set : List Char) : List Char :=
  ((cs.dropWhile (fun c => set.contains c)).reverse.dropWhile
    (fun c => set.contains c)).reverse

/-- The characters after the last `'.'` — the `ext` of
`name.rsplit(".", 1)`. -/
def extAfterDot (cs : List Char) : List Char :=
  (cs.reverse.takeWhile (fun c => c ≠ '.')).reverse

/-- The length-limiting step of `sanitize_filename` (applied when
`len(name) > max_len`): keep the extension after the last dot when there is
room for it, else a plain prefix cut. -/
def truncName (cs : List Char) (maxLen : Nat) : List Char :=
  if '.' ∈ cs then
    if (extAfterDot cs).length + 1 < maxLen then
      (cs.take (cs.length - (extAfterDot cs).length - 1)).take
        (maxLen - (extAfterDot cs).length - 1) ++ '.' :: extAfterDot cs
    else cs.take maxLen
  else cs.take maxLen

def windowsReserved : List String :=
  ["CON", "PRN", "AUX", "NUL",
   "COM1", "COM2", "COM3", "COM4", "COM5", "COM6", "COM7", "COM8", "COM9",
   "LPT1", "LPT2", "LPT3", "LPT4", "LPT5", "LPT6", "LPT7", "LPT8", "LPT9"]

/-- Filter then strip of `sanitize_filename` (the first two steps). -/
def sanitizeCore (name : String) : List Char :=
  stripChars (name.data.filter sanitizeKeep) [' ', '.']

/-- The conditional truncation (`if len(name) > max_len`). -/
def sanitizeTrunc (cs0 : List Char) (maxLen : Nat) : List Char :=
  if cs0.length > maxLen then truncName cs0 maxLen else cs0

/-- `name.split(".")[0].upper()` — the base name tested against the
Windows reserved names. -/
def sanitizeBase (cs1 : List Char) : String :=
  String.mk ((cs1.takeWhile (fun c => c ≠ '.')).map Char.toUpper)

/-- `SafePath.sanitize_filename(name, max_len)`. -/
def sanitizeFilename (name : String) (maxLen : Nat) : String :=
  if name = "" then "file"
  else if sanitizeCore name = [] then "file"
  else if windowsReserved.contains
      (sanitizeBase (sanitizeTrunc (sanitizeCore name) maxLen))
    then String.mk ('_' :: sanitizeTrunc (sanitizeCore name) maxLen)
  else String.mk (sanitizeTrunc (sanitizeCore name) maxLen)

theorem stripChars_subset (cs set : List Char) (c : Char)
    (h : c ∈ stripChars cs set) : c ∈ cs := by
  unfold stripChars at h
  rw [List.mem_reverse] at h
  have h1 := (List.dropWhile_sublist
    (l := (cs.dropWhile (fun c => set.contains c)).reverse)
    (fun c => set.contains c)).subset h
  rw [List.mem_reverse] at h1
  exact (List.dropWhile_sublist (l := cs) (fun c => set.contains c)).subset h1

theorem truncName_subset (cs : List Char) (maxLen : Nat) (c : Char)
    (h : c ∈ truncName cs maxLen) : c ∈ cs ∨ c = '.' := by
  unfold truncName at h
  split at h
  · split at h
    · rw [List.mem_append] at h
      rcases h with h | h
      · exact Or.inl (List.take_subset _ _ (List.take_subset _ _ h))
      · rcases List.mem_cons.mp h with h | h
        · exact Or.inr h
        · refine Or.inl ?_
          have h' := List.mem_reverse.mp h
          have h'' := (List.takeWhile_sublist
            (l := cs.reverse) (fun c => decide (c ≠ '.'))).subset h'
          exact List.mem_reverse.mp h''
    · exact Or.inl (List.take_subset _ _ h)
  · exact Or.inl (List.take_subset _ _ h)

theorem truncName_length (cs : List Char) (maxLen : Nat) :
    (truncName cs maxLen).length ≤ maxLen := by
  unfold truncName
  split
  · split
    · rename_i hroom
      simp only [List.length_append, List.length_cons, List.length_take]
      omega
    · exact List.length_take_le maxLen cs
  · exact List.length_take_le maxLen cs

theorem sanitizeKeep_prop (c : Char) (h : sanitizeKeep c = true) :
    32 ≤ c.toNat ∧ c.toNat < 127 ∧ c ∉ illegalChars := by
  unfold sanitizeKeep at h
  simp only [Bool.and_eq_true, decide_eq_true_eq] at h
  exact ⟨h.1.1, h.1.2, h.2⟩

theorem sanitizeCore_prop (name : String) (c : Char)
    (h : c ∈ sanitizeCore name) : 32 ≤ c.toNat ∧ c.toNat < 127 ∧ c ∉ illegalChars := by
  have h1 := stripChars_subset _ _ _ h
  exact sanitizeKeep_prop c (List.of_mem_filter h1)

theorem sanitizeTrunc_subset (cs0 : List Char) (maxLen : Nat) (c : Char)
    (h : c ∈ sanitizeTrunc cs0 maxLen) : c ∈ cs0 ∨ c = '.' := by
  unfold sanitizeTrunc at h
  split at h
  · exact truncName_subset cs0 maxLen c h
  · exact Or.inl h

theorem sanitizeTrunc_length (cs0 : List Char) (maxLen : Nat) :
    (sanitizeTrunc cs0 maxLen).length ≤ maxLen := by
  unfold sanitizeTrunc
  split
  · exact truncName_length cs0 maxLen
  · omega

/-- Claim C8 (amended): `sanitize_filename(name, max_len)` REMOVES (rather
than replacing) the characters of the set `<>:"/\|?*` along with control
and non-ASCII characters, trims leading and trailing dots and spaces before
truncation, truncates the intermediate name to at most `max_len` characters
BEFORE the reserved-name check, and prefixes an underscore to a Windows
reserved base name — so the final result can be `max_len + 1` characters,
and the `"file"` fallback for names that sanitise to nothing has 4
characters regardless of `max_len`.  Every character of the result is
printable ASCII outside the illegal set, and the length is at most
`max (max_len + 1) 4`. -/
theorem sanitize_filename_charset_and_bound (name : String) (maxLen : Nat) :
    (∀ c ∈ (sanitizeFilename name maxLen).data,
      32 ≤ c.toNat ∧ c.toNat < 127 ∧ c ∉ illegalChars) ∧
    (sanitizeFilename name maxLen).length ≤ max (maxLen + 1) 4 := by
  unfold sanitizeFilename
  have hfile : (∀ c ∈ ("file" : String).data,
      32 ≤ c.toNat ∧ c.toNat < 127 ∧ c ∉ illegalChars) ∧
      ("file" : String).length ≤ max (maxLen + 1) 4 := by
    refine ⟨by decide, ?_⟩
    have h4 : ("file" : String).length = 4 := rfl
    rw [h4]
    exact le_max_right _ _
  split
  · exact hfile
  · split
    · exact hfile
    · have hmem : ∀ c ∈ sanitizeTrunc (sanitizeCore name) maxLen,
          32 ≤ c.toNat ∧ c.toNat < 127 ∧ c ∉ illegalChars := by
        intro c hc
        rcases sanitizeTrunc_subset _ _ _ hc with h | h
        · exact sanitizeCore_prop name c h
        · subst h; decide
      have hlen := sanitizeTrunc_length (sanitizeCore name) maxLen
      split
      · constructor
        · intro c hc
          rcases List.mem_cons.mp hc with h | h
          · subst h; decide
          · exact hmem c h
        · show ('_' :: sanitizeTrunc (sanitizeCore name) maxLen).length ≤ _
          simp only [List.length_cons]
          omega
      · constructor
        · intro c hc
          exact hmem c hc
        · show (sanitizeTrunc (sanitizeCore name) maxLen).length ≤ _
          omega

/-- Claim C8 counterexample: `sanitize_filename("CON", 3)` returns `"_CON"`,
which has 4 > 3 characters — the reserved-name underscore is prefixed AFTER
truncation, so the result is not truncated to at most `max_len` characters;
and `sanitize_filename("a<b", 200)` returns `"ab"`, not `"a_b"` — the
illegal characters are removed, not replaced. -/
theorem sanitize_filename_reserved_exceeds_maxlen :
    sanitizeFilename "CON" 3 = "_CON" ∧ ¬ ("_CON".length ≤ 3) ∧
    sanitizeFilename "a<b" 200 = "ab" := by
  refine ⟨rfl, by decide, rfl⟩

/-! ## CancellationToken (src/core/download_manager.py)

The token wraps a `threading.Event` (a boolean latch) and a reason string.
Its only mutating operation is `cancel(reason)`, which stores the reason and
sets the event; `is_cancelled` reads the event. -/

structure CancelToken where
  eventSet : Bool
  reason : Option String

/-- A fresh token (`threading.Event` starts unset). -/
def tokenInit : CancelToken := ⟨false, none⟩

/-- `CancellationToken.cancel(reason)`. -/
def tokenCancel (t : CancelToken) (r : String) : CancelToken :=
  { t with reason := some r, eventSet := true }

/-- `CancellationToken.is_cancelled`. -/
def isCancelled (t : CancelToken) : Bool := t.eventSet

/-- The mutating operations available on a token: only `cancel`. -/
inductive TokenOp where
  | cancel (reason : String)

def tokenStep (t : CancelToken) : TokenOp → CancelToken
  | .cancel r => tokenCancel t r

/-- Claim C9: cancellation is monotonic — once `is_cancelled` is observed
true, it stays true under every sequence of further operations on the token;
no operation resets it. -/
theorem cancellation_monotonic (t : CancelToken) (ops : List TokenOp)
    (h : isCancelled t = true) : isCancelled (ops.foldl tokenStep t) = true := by
  induction ops generalizing t with
  | nil => exact h
  | cons op rest ih =>
    cases op with
    | cancel r => exact ih (tokenCancel t r) rfl

/-- Witness for C9 at a concrete token and operation list. -/
theorem cancellation_monotonic_witness :
    isCancelled ([TokenOp.cancel "关闭"].foldl tokenStep (tokenCancel tokenInit "用户取消")) = true :=
  cancellation_monotonic (tokenCancel tokenInit "用户取消") [TokenOp.cancel "关闭"] rfl

/-! ## DownloadManager.submit_download (src/core/download_manager.py)

Only the state that `submit_download` touches before scheduling is
modelled: the active set, `pending_count`, the task map keys, and the
events published on the bus.  The `id` field of the post dict is an
optional Python value (int or str), stringified with `str()`. -/

inductive PyVal where
  | pint (n : Int)
  | pstr (s : String)

/-- Python `str()` on the supported values. -/
def pyStr : PyVal → String
  | .pint n => intRepr n
  | .pstr s => s

structure DMState where
  active : List String
  pendingCount : Nat
  taskKeys : List String
  events : List (String × String)

/-- `DownloadManager.submit_download(post, ...)`, reduced to its effect on
the manager state; the returned value models the `CancellationToken` or
`None`. -/
def submitDownload (s : DMState) (idField : Option PyVal) :
    Option CancelToken × DMState :=
  let postId := match idField with
    | none => ""
    | some v => pyStr v
  if postId = "" then (none, s)
  else if s.active.contains postId then (none, s)
  else
    (some tokenInit,
      { active := s.active ++ [postId],
        pendingCount := s.pendingCount + 1,
        taskKeys := s.taskKeys ++ [postId],
        events := s.events ++ [("DOWNLOAD_STARTED", postId)] })

/-- Claim C10: when the post's `id` field is absent or stringifies to the
empty string, `submit_download` returns `None` and leaves the manager state
untouched: no task is registered, the active set is unchanged and no
`DOWNLOAD_STARTED` event is published.  (So the duplicate-task case is not
the only condition returning `None`.) -/
theorem submit_download_missing_id (s : DMState) (idField : Option PyVal)
    (h : (match idField with | none => "" | some v => pyStr v) = "") :
    submitDownload s idField = (none, s) := by
  unfold submitDownload
  rw [h]
  rfl

/-- Witness for C10: a post whose `id` stringifies to `""`, on a manager
with one unrelated active download. -/
theorem submit_download_missing_id_witness :
    submitDownload ⟨["7"], 1, ["7"], []⟩ (some (PyVal.pstr "")) =
      (none, ⟨["7"], 1, ["7"], []⟩) :=
  submit_download_missing_id ⟨["7"], 1, ["7"], []⟩ (some (PyVal.pstr "")) rfl

/-! ## DownloadManager._do_download (src/core/download_manager.py)

The per-attempt pipeline `_prepare_resume → _send_request → _write_chunks →
_verify_and_finalize` inside the retry loop of `_do_download`.  The server
is an oracle mapping (attempt index, optional `Range` offset) to a
response; the filesystem state of the task is the size of the `.tmp` file,
whether the final file exists, and an instrumentation counter of bytes
written.  The cancellation token is never set in the scenarios considered
(its polls are omitted), and progress callbacks have no effect on state. -/

structure DLConfig where
  maxRetries : Nat
  diskFree : Nat
  diskMinFreeBytes : Nat
  maxFileBytes : Nat

/-- `_check_disk_space(needed_bytes)`: free space and size-cap guards. -/
def checkDiskSpace (cfg : DLConfig) (needed : Nat) : Bool :=
  if cfg.diskFree < cfg.diskMinFreeBytes then false
  else if needed > cfg.maxFileBytes then false
  else true

structure HResponse where
  status : Nat
  contentLength : Option Nat
  chunks : List Nat
deriving DecidableEq

structure DLFs where
  tmp : Option Nat
  finalExists : Bool
  bytesWritten : Nat
deriving DecidableEq

/-- `_prepare_resume`: the already-downloaded size read from the tmp file. -/
def prepareResume (fs : DLFs) : Nat :=
  match fs.tmp with
  | some n => n
  | none => 0

/-- Truthiness of `context["total_size"]` (`None` and `0` are falsy). -/
def truthy : Option Nat → Bool
  | none => false
  | some n => decide (n ≠ 0)

inductive SendRes where
  | complete
  | proceed (resp : HResponse) (downloaded : Nat) (append : Bool) (total : Option Nat)
  | err (msg : String)
deriving DecidableEq

/-- Content-Length parsing and the disk-space guard of `_send_request`
(after the status-code dispatch fixed mode and `downloaded_size`). -/
def processLength (cfg : DLConfig) (resp : HResponse) (downloaded : Nat)
    (append : Bool) : SendRes :=
  let total : Option Nat := match resp.contentLength with
    | some len => some (len + downloaded)
    | none => none
  if truthy total && !(checkDiskSpace cfg (total.getD 0)) then
    .err "磁盘空间不足或文件超过大小限制"
  else .proceed resp downloaded append total

/-- Status-code dispatch of `_send_request`: 206 appends, 200 restarts,
3xx and anything else raise. -/
def processResp (cfg : DLConfig) (resp : HResponse) (downloaded : Nat) : SendRes :=
  if resp.status = 206 then processLength cfg resp downloaded true
  else if resp.status = 200 then processLength cfg resp 0 false
  else if 300 ≤ resp.status ∧ resp.status < 400 then .err "不允许重定向"
  else .err "HTTP 错误"

/-- `_send_request`, including the 416 special case: with a non-empty tmp
the file is complete (rename tmp → final); with an absent or empty tmp the
request is reissued without the `Range` header and `downloaded_size` is
reset to 0. -/
def sendRequest (cfg : DLConfig) (server1 : Option Nat → HResponse)
    (fs : DLFs) (downloaded : Nat) : SendRes × DLFs :=
  let range : Option Nat := if downloaded > 0 then some downloaded else none
  let resp := server1 range
  if resp.status = 416 then
    match fs.tmp with
    | some n =>
      if n > 0 then (.complete, { fs with tmp := none, finalExists := true })
      else (processResp cfg (server1 none) 0, fs)
    | none => (processResp cfg (server1 none) 0, fs)
  else (processResp cfg resp downloaded, fs)

/-- The chunk loop of `_write_chunks`: empty chunks are skipped, each chunk
is appended to the tmp file, and the declared-length overrun check
(`+ 5 KiB` slack) runs after each write. -/
def writeChunksLoop (total : Option Nat) (downloaded : Nat) :
    List Nat → Nat → DLFs → Except DLFs DLFs
  | [], _, fs => .ok fs
  | c :: rest, written, fs =>
    if c = 0 then writeChunksLoop total downloaded rest written fs
    else
      let written' := written + c
      let fs' : DLFs := ⟨some (fs.tmp.getD 0 + c), fs.finalExists, fs.bytesWritten + c⟩
      if truthy total && decide (downloaded + written' > total.getD 0 + 5 * 1024)
        then .error fs'
      else writeChunksLoop total downloaded rest written' fs'

/-- `_write_chunks`: open the tmp in append (`ab`) or truncate (`wb`) mode,
then stream. -/
def writeChunks (fs : DLFs) (append : Bool) (downloaded : Nat)
    (total : Option Nat) (chunks : List Nat) : Except DLFs DLFs :=
  let fs0 : DLFs := if append then { fs with tmp := some (fs.tmp.getD 0) }
    else { fs with tmp := some 0 }
  writeChunksLoop total downloaded chunks 0 fs0

/-- `_verify_and_finalize`: declared-length completeness check, then
rename tmp → final. -/
def verifyFinalize (fs : DLFs) (total : Option Nat) : Except DLFs DLFs :=
  if truthy total && decide (fs.tmp.getD 0 < total.getD 0) then .error fs
  else .ok { fs with tmp := none, finalExists := true }

inductive AttemptRes where
  | ok (fs : DLFs)
  | fail (fs : DLFs)
deriving DecidableEq

/-- One iteration of the retry loop of `_do_download` (the `try` body). -/
def runAttempt (cfg : DLConfig) (server1 : Option Nat → HResponse)
    (fs : DLFs) : AttemptRes :=
  let downloaded := prepareResume fs
  match sendRequest cfg server1 fs downloaded with
  | (.complete, fs1) => .ok fs1
  | (.err _, fs1) => .fail fs1
  | (.proceed resp downloaded1 append total, fs1) =>
    match writeChunks fs1 append downloaded1 total resp.chunks with
    | .error fs2 => .fail fs2
    | .ok fs2 =>
      match verifyFinalize fs2 total with
      | .error fs3 => .fail fs3
      | .ok fs3 => .ok fs3

/-- The retry loop of `_do_download` with an uncancelled token:
`_handle_retry_exception` retries while `attempt < max_retries - 1`.
Returns (success, filesystem state, number of attempts executed). -/
def doDownloadAux (cfg : DLConfig) (server : Nat → Option Nat → HResponse) :
    Nat → Nat → DLFs → Bool × DLFs × Nat
  | _, 0, fs => (false, fs, 0)
  | i, r + 1, fs =>
    match runAttempt cfg (server i) fs with
    | .ok fs1 => (true, fs1, 1)
    | .fail fs1 =>
      if i < cfg.maxRetries - 1 then
        let res := doDownloadAux cfg server (i + 1) r fs1
        (res.1, res.2.1, res.2.2 + 1)
      else (false, fs1, 1)

/-- `_do_download(url, path, tmp_path, task)`. -/
def doDownload (cfg : DLConfig) (server : Nat → Option Nat → HResponse)
    (fs : DLFs) : Bool × DLFs × Nat :=
  doDownloadAux cfg server 0 cfg.maxRetries fs

theorem runAttempt_guard_fail (cfg : DLConfig)
    (server1 : Option Nat → HResponse) (fs0 : DLFs)
    (htmp : fs0.tmp = none) (hst : (server1 none).status = 200)
    (hcl : match (server1 none).contentLength with
      | some len => len ≠ 0 ∧ checkDiskSpace cfg len = false
      | none => False) :
    runAttempt cfg server1 fs0 = .fail fs0 := by
  cases hL : (server1 none).contentLength with
  | none => rw [hL] at hcl; exact hcl.elim
  | some len =>
    rw [hL] at hcl
    obtain ⟨hL0, hguard⟩ := hcl
    unfold runAttempt sendRequest processResp processLength
    simp [prepareResume, htmp, hst, hL, hguard, truthy, hL0]

/-- Claim C2 (amended): when the disk-space guard trips (free space below
the minimum or expected size above the cap, with a 200 response declaring a
non-zero Content-Length) on every attempt, no bytes are ever written to
disk and the tmp/final files are untouched, but the failure is NOT
immediate: the guard error goes through the generic retry loop, so the task
reaches terminal failure only after `max_retries` attempts. -/
theorem disk_guard_failure_retries_then_fails (cfg : DLConfig)
    (server : Nat → Option Nat → HResponse) (fs0 : DLFs)
    (htmp : fs0.tmp = none)
    (hsrv : ∀ i, (server i none).status = 200 ∧
      match (server i none).contentLength with
      | some len => len ≠ 0 ∧ checkDiskSpace cfg len = false
      | none => False) :
    doDownload cfg server fs0 = (false, fs0, cfg.maxRetries) := by
  have hatt : ∀ i, runAttempt cfg (server i) fs0 = .fail fs0 :=
    fun i => runAttempt_guard_fail cfg (server i) fs0 htmp (hsrv i).1 (hsrv i).2
  have hloop : ∀ r i, i + r = cfg.maxRetries →
      doDownloadAux cfg server i r fs0 = (false, fs0, r) := by
    intro r
    induction r with
    | zero => intro i _; rfl
    | succ r ih =>
      intro i h
      simp only [doDownloadAux, hatt i]
      by_cases hi : i < cfg.maxRetries - 1
      · rw [if_pos hi, ih (i + 1) (by omega)]
      · rw [if_neg hi]
        have hr0 : r = 0 := by omega
        subst hr0
        rfl
  exact hloop cfg.maxRetries 0 (by omega)

/-- Witness for C2 at a concrete configuration (3 retries, free space 5
bytes below the 10-byte minimum) and a server always answering 200 with
Content-Length 50. -/
theorem disk_guard_failure_retries_then_fails_witness :
    doDownload ⟨3, 5, 10, 100⟩ (fun _ _ => ⟨200, some 50, [10]⟩)
      ⟨none, false, 0⟩ = (false, ⟨none, false, 0⟩, 3) :=
  disk_guard_failure_retries_then_fails ⟨3, 5, 10, 100⟩
    (fun _ _ => ⟨200, some 50, [10]⟩) ⟨none, false, 0⟩ rfl
    (fun _ => ⟨rfl, by decide, rfl⟩)

/-- Claim C2 counterexample: with the guard tripping on every attempt
(max_retries = 3), the run executes 3 attempts — the task does NOT enter
terminal failure "without any further retry attempts" as the claim states
(that would be exactly 1 attempt). -/
theorem disk_guard_failure_not_single_attempt :
    (doDownload ⟨3, 5, 10, 100⟩ (fun _ _ => ⟨200, some 50, [10]⟩)
      ⟨none, false, 0⟩).2.2 = 3 ∧ (3 : Nat) ≠ 1 := by
  exact ⟨rfl, by decide⟩

/-- Claim C4: (a) if the first attempt sends a `Range` header (non-empty
tmp of size n) and the server answers 416, the downloader renames tmp to
the final path and the task terminates successfully in that single attempt,
streaming nothing (bytes written unchanged); (b) at the `_send_request`
level, a 416 with an absent or empty tmp discards the `Range` header,
reissues the request plainly, and continues with the second response and
`downloaded_size = 0`. -/
theorem range_416_handling :
    (∀ (cfg : DLConfig) (server : Nat → Option Nat → HResponse)
      (fs : DLFs) (n : Nat), 1 ≤ cfg.maxRetries → fs.tmp = some n → 0 < n →
      (server 0 (some n)).status = 416 →
      doDownload cfg server fs =
        (true, { fs with tmp := none, finalExists := true }, 1)) ∧
    (∀ (cfg : DLConfig) (server1 : Option Nat → HResponse)
      (fs : DLFs) (downloaded : Nat),
      (fs.tmp = none ∨ fs.tmp = some 0) → 0 < downloaded →
      (server1 (some downloaded)).status = 416 →
      sendRequest cfg server1 fs downloaded =
        (processResp cfg (server1 none) 0, fs)) := by
  constructor
  · intro cfg server fs n hmr htmp hn hst
    obtain ⟨r, hr⟩ : ∃ r, cfg.maxRetries = r + 1 :=
      ⟨cfg.maxRetries - 1, by omega⟩
    have hatt : runAttempt cfg (server 0) fs =
        .ok { fs with tmp := none, finalExists := true } := by
      unfold runAttempt sendRequest
      simp [prepareResume, htmp, hn, hst]
    unfold doDownload
    rw [hr]
    simp only [doDownloadAux, hatt]
  · intro cfg server1 fs downloaded htmp hdl hst
    unfold sendRequest
    rcases htmp with htmp | htmp <;>
      simp [htmp, hdl, hst]

/-- Witness for C4 at concrete inputs: (a) tmp of 100 bytes, server answers
416 to the ranged request; (b) empty tmp, `downloaded_size = 7`, 416 to the
ranged request and a plain 200 on reissue. -/
theorem range_416_handling_witness :
    doDownload ⟨3, 5, 10, 100⟩ (fun _ _ => ⟨416, none, []⟩)
      ⟨some 100, false, 0⟩ = (true, ⟨none, true, 0⟩, 1) ∧
    sendRequest ⟨3, 5, 10, 100⟩
      (fun r => match r with
        | some _ => ⟨416, none, []⟩
        | none => ⟨200, some 5, [5]⟩) ⟨some 0, false, 0⟩ 7 =
      (processResp ⟨3, 5, 10, 100⟩ ⟨200, some 5, [5]⟩ 0, ⟨some 0, false, 0⟩) := by
  constructor
  · exact range_416_handling.1 ⟨3, 5, 10, 100⟩ (fun _ _ => ⟨416, none, []⟩)
      ⟨some 100, false, 0⟩ 100 (by decide) rfl (by decide) rfl
  · exact range_416_handling.2 ⟨3, 5, 10, 100⟩
      (fun r => match r with
        | some _ => ⟨416, none, []⟩
        | none => ⟨200, some 5, [5]⟩) ⟨some 0, false, 0⟩ 7
      (Or.inr rfl) (by decide) rfl

/-! ## UrlValidator (src/utils/security.py)

`urllib.parse.urlparse` is modelled for scheme://host[:port]/path URLs;
DNS resolution (`socket.getaddrinfo`) is an oracle `host → Option (List
String)` where `none` models `gaierror` (the code then conservatively
allows).  The private-network check implements the four IPv4 networks of
`PRIVATE_NETWORKS`; the IPv6 entries are irrelevant here because
`ipaddress.ip_address` never parses the modelled hostnames as IPv6. -/

def digitsToNat (cs : List Char) : Nat :=
  cs.foldl (fun a c => a * 10 + (c.toNat - 48)) 0

/-- Split a list at the first character satisfying `p`. -/
def breakAt (p : Char → Bool) : List Char → List Char × List Char
  | [] => ([], [])
  | c :: rest =>
    if p c then ([], c :: rest)
    else
      let r := breakAt p rest
      (c :: r.1, r.2)

def splitChar (sep : Char) : List Char → List (List Char)
  | [] => [[]]
  | c :: rest =>
    if c = sep then [] :: splitChar sep rest
    else
      match splitChar sep rest with
      | [] => [[c]]
      | g :: gs => (c :: g) :: gs

def lowerStr (cs : List Char) : List Char := cs.map Char.toLower

/-- Characters allowed in a URL scheme after the leading letter. -/
def isSchemeChar (c : Char) : Bool :=
  c.isAlphanum || c = '+' || c = '-' || c = '.'

structure ParsedUrl where
  scheme : String
  hostname : Option String
  port : Option Nat

/-- `netloc.rpartition("@")[2]` — drop the userinfo. -/
def afterLastAt (cs : List Char) : List Char :=
  (cs.reverse.takeWhile (fun c => c ≠ '@')).reverse

/-- `urllib.parse.urlparse`, reduced to scheme, lowercased hostname and
port. -/
def parseUrl (url : String) : ParsedUrl :=
  let cs := url.data
  let br := breakAt (fun c => c = ':') cs
  let hasScheme := !br.2.isEmpty && !br.1.isEmpty &&
    (br.1.head?.map Char.isAlpha).getD false && br.1.all isSchemeChar
  let scheme := if hasScheme then lowerStr br.1 else []
  let rest := if hasScheme then br.2.drop 1 else cs
  if rest.take 2 = ['/', '/'] then
    let netloc := (rest.drop 2).takeWhile
      (fun c => c ≠ '/' && c ≠ '?' && c ≠ '#')
    let hostport := afterLastAt netloc
    let hp := breakAt (fun c => c = ':') hostport
    let port : Option Nat :=
      if hp.2.isEmpty then none
      else
        let ds := hp.2.drop 1
        if !ds.isEmpty && ds.all Char.isDigit && decide (digitsToNat ds ≤ 65535)
          then some (digitsToNat ds) else none
    let host := lowerStr hp.1
    ⟨String.mk scheme, if host.isEmpty then none else some (String.mk host), port⟩
  else ⟨String.mk scheme, none, none⟩

/-- `ipaddress.ip_address` restricted to IPv4 dotted quads: four decimal
octets 0–255 with no leading zeros. -/
def parseOctet (cs : List Char) : Option Nat :=
  if !cs.isEmpty && decide (cs.length ≤ 3) && cs.all Char.isDigit &&
      (decide (cs.length = 1) || decide (cs.head? ≠ some '0')) then
    if digitsToNat cs ≤ 255 then some (digitsToNat cs) else none
  else none

def parseIPv4 (s : String) : Option (Nat × Nat × Nat × Nat) :=
  match (splitChar '.' s.data).map parseOctet with
  | [some a, some b, some c, some d] => some (a, b, c, d)
  | _ => none

/-- `UrlValidator._is_private_ip` on the IPv4 networks of
`PRIVATE_NETWORKS` (10/8, 172.16/12, 192.168/16, 127/8, 169.254/16). -/
def isPrivateIPv4 (s : String) : Bool :=
  match parseIPv4 s with
  | some (a, b, _, _) =>
    decide (a = 10) || (decide (a = 172) && decide (16 ≤ b) && decide (b ≤ 31)) ||
    (decide (a = 192) && decide (b = 168)) || decide (a = 127) ||
    (decide (a = 169) && decide (b = 254))
  | none => false

def blockedPorts : List Nat := [22, 23, 25, 445, 3389, 6379, 27017]

structure UVConfig where
  allowedSchemes : List String
  allowedHosts : List String
  blockPrivateIps : Bool
  resolveDns : Bool

/-- `str.endswith` on character lists. -/
def endsWithL (cs suffix : List Char) : Bool :=
  decide (suffix = cs.drop (cs.length - suffix.length))

/-- `UrlValidator._is_host_allowed`: exact match or subdomain of an
allowed host. -/
def isHostAllowed (cfg : UVConfig) (host : String) : Bool :=
  if host = "" then false
  else
    let hostL := lowerStr host.data
    cfg.allowedHosts.any
      (fun h => decide (hostL = h.data) || endsWithL hostL ('.' :: h.data))

/-- `UrlValidator._check_not_private` with the DNS oracle: a literal
private IP is rejected; with `resolve_dns`, an `AI_NUMERICHOST` lookup
succeeds only for numeric hosts, otherwise the oracle is consulted and a
resolution failure conservatively allows. -/
def checkNotPrivate (cfg : UVConfig) (dns : String → Option (List String))
    (host : String) : Bool :=
  if isPrivateIPv4 host then false
  else if cfg.resolveDns then
    match (if (parseIPv4 host).isSome then some [host] else dns host) with
    | none => true
    | some ips => ips.all (fun ip => !(isPrivateIPv4 ip))
  else true

/-- `UrlValidator.validate(url)`. -/
def validateUrl (cfg : UVConfig) (dns : String → Option (List String))
    (url : String) : Bool :=
  let parsed := parseUrl url
  if !(cfg.allowedSchemes.contains parsed.scheme) then false
  else
    let portBad := match parsed.port with
      | some p => decide (p ≠ 0) && blockedPorts.contains p
      | none => false
    if portBad then false
    else
      let host := parsed.hostname.getD ""
      if !(isHostAllowed cfg host) then false
      else if cfg.blockPrivateIps then checkNotPrivate cfg dns host
      else true

/-- The validator configuration of the S3 scenario. -/
def c7cfg : UVConfig :=
  ⟨["https"], ["service.example", "files.service.example"], true, true⟩

/-- Claim C7: with allowed hosts {service.example, files.service.example}
and scheme https only, the validator accepts the https URL on the allowed
host (for any DNS resolution that does not map it to a private address —
including resolution failure), rejects the same URL over http (scheme), and
rejects the loopback host 127.0.0.1 (not whitelisted). -/
theorem url_validator_scenarios (dns : String → Option (List String))
    (hdns : ∀ ips, dns "files.service.example" = some ips →
      ips.all (fun ip => !(isPrivateIPv4 ip)) = true) :
    validateUrl c7cfg dns "https://files.service.example/a.jpg" = true ∧
    validateUrl c7cfg dns "http://files.service.example/a.jpg" = false ∧
    validateUrl c7cfg dns "https://127.0.0.1/a.jpg" = false := by
  refine ⟨?_, rfl, rfl⟩
  have h1 : validateUrl c7cfg dns "https://files.service.example/a.jpg" =
      checkNotPrivate c7cfg dns "files.service.example" := rfl
  have h2 : checkNotPrivate c7cfg dns "files.service.example" =
      (match dns "files.service.example" with
        | none => true
        | some ips => ips.all (fun ip => !(isPrivateIPv4 ip))) := rfl
  rw [h1, h2]
  cases hd : dns "files.service.example" with
  | none => rfl
  | some ips => exact hdns ips hd

/-- Witness for C7 with the DNS oracle that always fails to resolve
(`socket.gaierror`). -/
theorem url_validator_scenarios_witness :
    validateUrl c7cfg (fun _ => none) "https://files.service.example/a.jpg" = true ∧
    validateUrl c7cfg (fun _ => none) "http://files.service.example/a.jpg" = false ∧
    validateUrl c7cfg (fun _ => none) "https://127.0.0.1/a.jpg" = false :=
  url_validator_scenarios (fun _ => none) (fun _ h => Option.noConfusion h)

/-! ## TurboPreloader priority queue (src/core/preloader.py)

`PreloadTask` is a `dataclass(order=True)` whose only comparing field is
`priority` — `post_id`, `post` and `created_at` are `compare=False` — so the
heap is keyed by priority alone.  The queue is Python's `heapq` over a
list, embedded here over `Array` following the CPython `heapq` algorithms
(`_siftdown`, `_siftup`, `heappush`, `heappop`) verbatim. -/

structure PreloadTask where
  priority : Nat
  postId : String
deriving DecidableEq, Inhabited

/-- The `<` comparison generated by `dataclass(order=True)`: it compares
the tuple of compare-enabled fields, which is `(priority,)`. -/
def taskLt (a b : PreloadTask) : Bool := decide (a.priority < b.priority)

/-- CPython `heapq._siftdown(heap, startpos, pos)` after reading
`newitem = heap[pos]`.  The loop strictly decreases `pos`, so a fuel equal
to the starting `pos` is enough: when the fuel runs out `pos = 0`, which is
the loop-exit case anyway. -/
def siftdownAux {α : Type} [Inhabited α] (lt : α → α → Bool) (newitem : α)
    (startpos : Nat) : Nat → Array α → Nat → Array α
  | 0, heap, pos => heap.set! pos newitem
  | fuel + 1, heap, pos =>
    if startpos < pos then
      let parentpos := (pos - 1) / 2
      let parent := heap.get! parentpos
      if lt newitem parent then
        siftdownAux lt newitem startpos fuel (heap.set! pos parent) parentpos
      else heap.set! pos newitem
    else heap.set! pos newitem

/-- CPython `heapq.heappush`. -/
def heappush {α : Type} [Inhabited α] (lt : α → α → Bool) (heap : Array α)
    (item : α) : Array α :=
  siftdownAux lt item 0 heap.size (heap.push item) heap.size

/-- The descend-to-leaf loop of CPython `heapq._siftup`, returning the
array and the final position of the hole.  The loop strictly increases
`pos` below `endpos`, so a fuel of `endpos` is enough. -/
def siftupLoop {α : Type} [Inhabited α] (lt : α → α → Bool) (endpos : Nat) :
    Nat → Array α → Nat → Array α × Nat
  | 0, heap, pos => (heap, pos)
  | fuel + 1, heap, pos =>
    let childpos := 2 * pos + 1
    if childpos < endpos then
      let rightpos := childpos + 1
      if rightpos < endpos ∧ lt (heap.get! childpos) (heap.get! rightpos) = false
      then siftupLoop lt endpos fuel (heap.set! pos (heap.get! rightpos)) rightpos
      else siftupLoop lt endpos fuel (heap.set! pos (heap.get! childpos)) childpos
    else (heap, pos)

/-- CPython `heapq._siftup(heap, pos)`. -/
def siftup {α : Type} [Inhabited α] (lt : α → α → Bool) (heap : Array α)
    (pos : Nat) : Array α :=
  let newitem := heap.get! pos
  let r := siftupLoop lt heap.size heap.size heap pos
  siftdownAux lt newitem pos r.2 (r.1.set! r.2 newitem) r.2

/-- CPython `heapq.heappop`. -/
def heappop {α : Type} [Inhabited α] (lt : α → α → Bool) (heap : Array α) :
    Option (α × Array α) :=
  if heap.size = 0 then none
  else
    let lastelt := heap.get! (heap.size - 1)
    let heap1 := heap.pop
    if heap1.size = 0 then some (lastelt, heap1)
    else
      let returnitem := heap1.get! 0
      some (returnitem, siftup lt (heap1.set! 0 lastelt) 0)

/-- Drain the heap by repeated `heappop` (as the scheduler loop does). -/
def popAllAux {α : Type} [Inhabited α] (lt : α → α → Bool) :
    Nat → Array α → List α
  | 0, _ => []
  | f + 1, heap =>
    match heappop lt heap with
    | none => []
    | some (x, heap1) => x :: popAllAux lt f heap1

def popAll {α : Type} [Inhabited α] (lt : α → α → Bool) (heap : Array α) :
    List α :=
  popAllAux lt heap.size heap

/-- The preloader state touched by `_enqueue_batch`: the heap, the pending
map keys, the in-progress set, and the ids present in the image cache. -/
structure PreState where
  queue : Array PreloadTask
  pending : List String
  inProgress : List String
  cached : List String

/-- `TurboPreloader._enqueue_batch(posts, priority)` over the stringified
post ids (`""` models a missing id): skip blank, cached, pending and
in-progress ids; push the rest onto the heap and register them pending.
Returns the state and the number of tasks added. -/
def enqueueBatch (s : PreState) (priority : Nat) :
    List String → PreState × Nat
  | [] => (s, 0)
  | pid :: rest =>
    if pid = "" then enqueueBatch s priority rest
    else if s.cached.contains pid then enqueueBatch s priority rest
    else if s.pending.contains pid || s.inProgress.contains pid then
      enqueueBatch s priority rest
    else
      let s1 : PreState :=
        { s with queue := heappush taskLt s.queue ⟨priority, pid⟩,
                 pending := s.pending ++ [pid] }
      let r := enqueueBatch s1 priority rest
      (r.1, r.2 + 1)

theorem siftdownAux_size {α : Type} [Inhabited α] (lt : α → α → Bool)
    (newitem : α) (startpos : Nat) :
    ∀ (fuel : Nat) (heap : Array α) (pos : Nat),
    (siftdownAux lt newitem startpos fuel heap pos).size = heap.size := by
  intro fuel
  induction fuel with
  | zero => intro heap pos; simp [siftdownAux, Array.size_set!]
  | succ fuel ih =>
    intro heap pos
    rw [siftdownAux]
    split
    · dsimp only
      split
      · rw [ih]; exact Array.size_set! _ _ _
      · exact Array.size_set! _ _ _
    · exact Array.size_set! _ _ _

theorem siftupLoop_size {α : Type} [Inhabited α] (lt : α → α → Bool)
    (endpos : Nat) : ∀ (fuel : Nat) (heap : Array α) (pos : Nat),
    (siftupLoop lt endpos fuel heap pos).1.size = heap.size := by
  intro fuel
  induction fuel with
  | zero => intro heap pos; rfl
  | succ fuel ih =>
    intro heap pos
    rw [siftupLoop]
    split
    · dsimp only
      split
      · rw [ih]; exact Array.size_set! _ _ _
      · rw [ih]; exact Array.size_set! _ _ _
    · rfl

theorem heappush_size {α : Type} [Inhabited α] (lt : α → α → Bool)
    (heap : Array α) (item : α) :
    (heappush lt heap item).size = heap.size + 1 := by
  unfold heappush
  rw [siftdownAux_size, Array.size_push]

theorem enqueueBatch_cached_inProgress (priority : Nat) :
    ∀ (ids : List String) (s : PreState),
    (enqueueBatch s priority ids).1.cached = s.cached ∧
    (enqueueBatch s priority ids).1.inProgress = s.inProgress := by
  intro ids
  induction ids with
  | nil => intro s; exact ⟨rfl, rfl⟩
  | cons pid rest ih =>
    intro s
    rw [enqueueBatch]
    split
    · exact ih s
    · split
      · exact ih s
      · split
        · exact ih s
        · exact ih _

theorem enqueueBatch_pending_mono (priority : Nat) :
    ∀ (ids : List String) (s : PreState) (pid : String),
    pid ∈ s.pending → pid ∈ (enqueueBatch s priority ids).1.pending := by
  intro ids
  induction ids with
  | nil => intro s pid h; exact h
  | cons q rest ih =>
    intro s pid h
    rw [enqueueBatch]
    split
    · exact ih s pid h
    · split
      · exact ih s pid h
      · split
        · exact ih s pid h
        · exact ih _ pid (List.mem_append_left _ h)

theorem enqueueBatch_size (priority : Nat) :
    ∀ (ids : List String) (s : PreState),
    (enqueueBatch s priority ids).1.queue.size =
      s.queue.size + (enqueueBatch s priority ids).2 := by
  intro ids
  induction ids with
  | nil => intro s; rfl
  | cons pid rest ih =>
    intro s
    rw [enqueueBatch]
    split
    · exact ih s
    · split
      · exact ih s
      · split
        · exact ih s
        · have h1 := ih ({ s with
            queue := heappush taskLt s.queue ⟨priority, pid⟩,
            pending := s.pending ++ [pid] })
          simp only at h1 ⊢
          rw [h1, heappush_size]
          omega

theorem enqueueBatch_membership (priority : Nat) :
    ∀ (ids : List String) (s : PreState) (pid : String),
    pid ∈ ids → pid ≠ "" →
    pid ∈ (enqueueBatch s priority ids).1.pending ∨
      s.cached.contains pid = true ∨ s.inProgress.contains pid = true := by
  intro ids
  induction ids with
  | nil => intro s pid h; exact absurd h (List.not_mem_nil pid)
  | cons q rest ih =>
    intro s pid hmem hne
    rw [enqueueBatch]
    rcases List.mem_cons.mp hmem with hq | hq
    · subst hq
      split
      · rename_i hq0
        exact absurd hq0 hne
      · split
        · exact Or.inr (Or.inl (by assumption))
        · rename_i hpi
          split
          · rename_i hcond
            rcases Bool.or_eq_true _ _ |>.mp hcond with hp | hp
            · exact Or.inl (enqueueBatch_pending_mono priority rest s pid
                (List.elem_iff.mp hp))
            · exact Or.inr (Or.inr hp)
          · refine Or.inl (enqueueBatch_pending_mono priority rest _ pid ?_)
            exact List.mem_append_right _ (List.mem_singleton.mpr rfl)
    · split
      · exact ih s pid hq hne
      · split
        · exact ih s pid hq hne
        · split
          · exact ih s pid hq hne
          · dsimp only
            rcases ih ({ s with
                queue := heappush taskLt s.queue ⟨priority, q⟩,
                pending := s.pending ++ [q] }) pid hq hne with h | h | h
            · exact Or.inl h
            · exact Or.inr (Or.inl h)
            · exact Or.inr (Or.inr h)

/-- Claim C3 (amended): a batch handed to one preloader enqueue call is
added in a single locked critical section (modelled as one state
transformation): every eligible id of the batch (non-blank, not cached, not
pending, not in progress) ends up registered in the pending map, and the
heap grows by exactly the number of added tasks.  The heap is keyed by
PRIORITY ALONE — there is no insertion sequence number, and two tasks of
equal priority are incomparable — so the pop order of equal-priority tasks
need not preserve their insertion order within the batch. -/
theorem preload_enqueue_priority_only :
    (∀ a b : PreloadTask, a.priority = b.priority →
      taskLt a b = false ∧ taskLt b a = false) ∧
    (∀ (s : PreState) (priority : Nat) (ids : List String),
      (enqueueBatch s priority ids).1.queue.size =
        s.queue.size + (enqueueBatch s priority ids).2) ∧
    (∀ (s : PreState) (priority : Nat) (ids : List String) (pid : String),
      pid ∈ ids → pid ≠ "" →
      pid ∈ (enqueueBatch s priority ids).1.pending ∨
        s.cached.contains pid = true ∨ s.inProgress.contains pid = true) := by
  refine ⟨?_, ?_, ?_⟩
  · intro a b h
    unfold taskLt
    rw [h]
    exact ⟨by simp, by simp⟩
  · intro s priority ids
    exact enqueueBatch_size priority ids s
  · intro s priority ids pid h1 h2
    exact enqueueBatch_membership priority ids s pid h1 h2

/-- Witness for C3 on a concrete batch of four posts at equal priority. -/
theorem preload_enqueue_priority_only_witness :
    (taskLt ⟨0, "1"⟩ ⟨0, "2"⟩ = false ∧ taskLt ⟨0, "2"⟩ ⟨0, "1"⟩ = false) ∧
    (enqueueBatch ⟨#[], [], [], []⟩ 0 ["1", "2", "3", "4"]).1.queue.size =
      (#[] : Array PreloadTask).size +
        (enqueueBatch ⟨#[], [], [], []⟩ 0 ["1", "2", "3", "4"]).2 ∧
    ("3" ∈ (enqueueBatch ⟨#[], [], [], []⟩ 0 ["1", "2", "3", "4"]).1.pending ∨
      (([] : List String)).contains "3" = true ∨
      (([] : List String)).contains "3" = true) :=
  ⟨preload_enqueue_priority_only.1 ⟨0, "1"⟩ ⟨0, "2"⟩ rfl,
   preload_enqueue_priority_only.2.1 ⟨#[], [], [], []⟩ 0 ["1", "2", "3", "4"],
   preload_enqueue_priority_only.2.2 ⟨#[], [], [], []⟩ 0 ["1", "2", "3", "4"]
     "3" (by decide) (by decide)⟩

/-- Claim C3 counterexample: four equal-priority tasks enqueued in order
1, 2, 3, 4 are popped from the heap in the order 1, 3, 2, 4 — the pop order
of equal-priority tasks does NOT preserve their insertion order, because the
heap key is the priority alone, not a pair with an insertion sequence
number. -/
theorem preload_equal_priority_fifo_violated :
    (popAll taskLt
      (enqueueBatch ⟨#[], [], [], []⟩ 0 ["1", "2", "3", "4"]).1.queue).map
        PreloadTask.postId = ["1", "3", "2", "4"] ∧
    ["1", "3", "2", "4"] ≠ ["1", "2", "3", "4"] := by
  exact ⟨by decide, by decide⟩

/-! ## JSON values and `json.dumps` (src/utils/helpers.py, safe_json_save)

`safe_json_save` serialises with `json.dumps(data, ensure_ascii=False,
indent=2, default=str)`.  JSON values are embedded as an inductive (floats
are outside the embedding); `dumps` below reproduces CPython's output for
`indent=2` exactly: pretty-printed containers, `", "`-free separators
(`','` + newline-indent, `': '`), and `ensure_ascii=False` string escaping
(only `"`, `\` and control characters are escaped, control characters
outside `\b \f \n \r \t` as lowercase `\u00xx`). -/

inductive Json where
  | null
  | bool (b : Bool)
  | num (n : Int)
  | str (s : String)
  | arr (elems : List Json)
  | obj (members : List (String × Json))

mutual
/-- Structural size, used as the parser-fuel measure. -/
def jsize : Json → Nat
  | .null => 1
  | .bool _ => 1
  | .num _ => 1
  | .str _ => 1
  | .arr xs => 1 + jsizeList xs
  | .obj ms => 1 + jsizeMembers ms
def jsizeList : List Json → Nat
  | [] => 0
  | x :: xs => jsize x + jsizeList xs
def jsizeMembers : List (String × Json) → Nat
  | [] => 0
  | m :: ms => jsize m.2 + jsizeMembers ms
end

def nodupKeys : List String → Bool
  | [] => true
  | k :: ks => !(ks.contains k) && nodupKeys ks

mutual
/-- Well-formedness: every object has distinct keys — the values Python
dicts can actually represent. -/
def jwf : Json → Bool
  | .null => true
  | .bool _ => true
  | .num _ => true
  | .str _ => true
  | .arr xs => jwfList xs
  | .obj ms => nodupKeys (ms.map Prod.fst) && jwfMembers ms
def jwfList : List Json → Bool
  | [] => true
  | x :: xs => jwf x && jwfList xs
def jwfMembers : List (String × Json) → Bool
  | [] => true
  | m :: ms => jwf m.2 && jwfMembers ms
end

/-- The opening and closing curly braces as characters. -/
def obrace : Char := Char.ofNat 123
def cbrace : Char := Char.ofNat 125

def hexChar (d : Nat) : Char :=
  if d < 10 then Char.ofNat (48 + d) else Char.ofNat (87 + d)

/-- CPython `ESCAPE_DCT` for `ensure_ascii=False`. -/
def escapeChar (c : Char) : List Char :=
  if c = '"' then ['\\', '"']
  else if c = '\\' then ['\\', '\\']
  else if c = Char.ofNat 8 then ['\\', 'b']
  else if c = Char.ofNat 12 then ['\\', 'f']
  else if c = Char.ofNat 10 then ['\\', 'n']
  else if c = Char.ofNat 13 then ['\\', 'r']
  else if c = Char.ofNat 9 then ['\\', 't']
  else if c.toNat < 32 then
    ['\\', 'u', '0', '0', hexChar (c.toNat / 16), hexChar (c.toNat % 16)]
  else [c]

def escapeStr : List Char → List Char
  | [] => []
  | c :: rest => escapeChar c ++ escapeStr rest

/-- `str(n)` as characters. -/
def intReprL (n : Int) : List Char :=
  if n < 0 then '-' :: natToChars (-n).toNat else natToChars n.toNat

/-- `' ' * (2 * level)` — the `indent=2` prefix. -/
def indentC (level : Nat) : List Char := List.replicate (2 * level) ' '

/-- Newline plus indentation. -/
def nlInd (level : Nat) : List Char := '\n' :: indentC level

mutual
/-- The serialiser body of `json.dumps(v, ensure_ascii=False, indent=2)`
at a nesting level. -/
def dumpsV (level : Nat) : Json → List Char
  | .null => "null".data
  | .bool true => "true".data
  | .bool false => "false".data
  | .num n => intReprL n
  | .str s => '"' :: escapeStr s.data ++ ['"']
  | .arr xs => dumpsArr level xs
  | .obj ms => dumpsObj level ms
def dumpsArr (level : Nat) : List Json → List Char
  | [] => ['[', ']']
  | x :: xs =>
    '[' :: nlInd (level + 1) ++ dumpsV (level + 1) x ++
      dumpsArrRest (level + 1) xs ++ nlInd level ++ [']']
def dumpsArrRest (level : Nat) : List Json → List Char
  | [] => []
  | x :: xs => ',' :: nlInd level ++ dumpsV level x ++ dumpsArrRest level xs
def dumpsMember (level : Nat) : String × Json → List Char
  | (k, v) => '"' :: escapeStr k.data ++ '"' :: ':' :: ' ' :: dumpsV level v
def dumpsObj (level : Nat) : List (String × Json) → List Char
  | [] => [obrace, cbrace]
  | m :: ms =>
    obrace :: nlInd (level + 1) ++ dumpsMember (level + 1) m ++
      dumpsObjRest (level + 1) ms ++ nlInd level ++ [cbrace]
def dumpsObjRest (level : Nat) : List (String × Json) → List Char
  | [] => []
  | m :: ms => ',' :: nlInd level ++ dumpsMember level m ++ dumpsObjRest level ms
end

/-- `json.dumps(v, ensure_ascii=False, indent=2, default=str)`. -/
def dumps (v : Json) : String := String.mk (dumpsV 0 v)

/-! ## `json.loads` (the CPython pure-Python scanner, strict mode) -/

/-- JSON whitespace (`WHITESPACE = re.compile(r'[ \t\n\r]*')`). -/
def isJsonWs (c : Char) : Bool :=
  c = ' ' || c = '\t' || c = '\n' || c = '\r'

def skipWs (s : List Char) : List Char := s.dropWhile isJsonWs

/-- `[0-9]` (`\d` of `NUMBER_RE`). -/
def isDigitC (c : Char) : Bool :=
  decide (48 ≤ c.toNat) && decide (c.toNat ≤ 57)

/-- Accumulate decimal digits. -/
def parseDigits : List Char → Nat → Nat × List Char
  | [], acc => (acc, [])
  | c :: rest, acc =>
    if isDigitC c then parseDigits rest (acc * 10 + (c.toNat - 48))
    else (acc, c :: rest)

/-- The integer part of `NUMBER_RE`: `0` or a nonzero digit followed by
digits (a leading `0` is never followed by more digits). -/
def parseIntPart : List Char → Option (Nat × List Char)
  | [] => none
  | c :: rest =>
    if c = '0' then some (0, rest)
    else if isDigitC c then some (parseDigits (c :: rest) 0)
    else none

/-- Whether a fraction (`(\.\d+)?`) or exponent (`([eE][-+]?\d+)?`) part
follows — such a match would be a float, which is outside this embedding
(the repository persists no floats). -/
def floatFollows : List Char → Bool
  | [] => false
  | c :: tail =>
    if c = '.' then
      match tail with
      | d :: _ => isDigitC d
      | [] => false
    else if c = 'e' || c = 'E' then
      match tail with
      | [] => false
      | t1 :: t2 =>
        if t1 = '+' || t1 = '-' then
          match t2 with
          | d :: _ => isDigitC d
          | [] => false
        else isDigitC t1
    else false

/-- Number scanning (`NUMBER_RE` match + `int(...)`), integers only. -/
def parseNum (s : List Char) : Option (Int × List Char) :=
  match s with
  | [] => none
  | c :: rest =>
    if c = '-' then
      match parseIntPart rest with
      | none => none
      | some (n, r) =>
        if floatFollows r then none else some (-(n : Int), r)
    else
      match parseIntPart (c :: rest) with
      | none => none
      | some (n, r) =>
        if floatFollows r then none else some ((n : Int), r)

def hexVal (c : Char) : Option Nat :=
  if '0' ≤ c ∧ c ≤ '9' then some (c.toNat - 48)
  else if 'a' ≤ c ∧ c ≤ 'f' then some (c.toNat - 87)
  else if 'A' ≤ c ∧ c ≤ 'F' then some (c.toNat - 55)
  else none

/-- The four hex digits of a `\\uXXXX` escape. -/
def hex4 (h1 h2 h3 h4 : Char) : Option Nat :=
  match hexVal h1, hexVal h2, hexVal h3, hexVal h4 with
  | some d1, some d2, some d3, some d4 =>
    some (((d1 * 16 + d2) * 16 + d3) * 16 + d4)
  | _, _, _, _ => none

/-- `py_scanstring` after the opening quote (strict mode: raw control
characters are an error).  `\\uXXXX` surrogate code points are outside the
embedding (they cannot appear in `dumps` output).  Each step consumes at
least one character, so the input length is enough fuel. -/
def parseStrBody : Nat → List Char → Option (List Char × List Char)
  | 0, _ => none
  | fuel + 1, s =>
    match s with
    | [] => none
    | c :: rest =>
      if c = '"' then some ([], rest)
      else if c = '\\' then
        match rest with
        | [] => none
        | e :: rest2 =>
          if e = '"' then
            (parseStrBody fuel rest2).map (fun r => ('"' :: r.1, r.2))
          else if e = '\\' then
            (parseStrBody fuel rest2).map (fun r => ('\\' :: r.1, r.2))
          else if e = '/' then
            (parseStrBody fuel rest2).map (fun r => ('/' :: r.1, r.2))
          else if e = 'b' then
            (parseStrBody fuel rest2).map (fun r => (Char.ofNat 8 :: r.1, r.2))
          else if e = 'f' then
            (parseStrBody fuel rest2).map (fun r => (Char.ofNat 12 :: r.1, r.2))
          else if e = 'n' then
            (parseStrBody fuel rest2).map (fun r => (Char.ofNat 10 :: r.1, r.2))
          else if e = 'r' then
            (parseStrBody fuel rest2).map (fun r => (Char.ofNat 13 :: r.1, r.2))
          else if e = 't' then
            (parseStrBody fuel rest2).map (fun r => (Char.ofNat 9 :: r.1, r.2))
          else if e = 'u' then
            match rest2 with
            | h1 :: h2 :: h3 :: h4 :: rest3 =>
              match hex4 h1 h2 h3 h4 with
              | some cp =>
                if cp < 55296 then
                  (parseStrBody fuel rest3).map
                    (fun r => (Char.ofNat cp :: r.1, r.2))
                else none
              | none => none
            | _ => none
          else none
      else if c.toNat < 32 then none
      else (parseStrBody fuel rest).map (fun r => (c :: r.1, r.2))

/-- `dict(pairs)`: later duplicate keys overwrite in place. -/
def mkDict (pairs : List (String × Json)) : List (String × Json) :=
  pairs.foldl (fun acc m => setA acc m.1 m.2) []

mutual
/-- `scan_once`: one JSON value, no leading whitespace. -/
def parseVal : Nat → List Char → Option (Json × List Char)
  | 0, _ => none
  | fuel + 1, s =>
    match s with
    | [] => none
    | c :: rest =>
      if c = '"' then
        (parseStrBody rest.length rest).map
          (fun r => (.str (String.mk r.1), r.2))
      else if c = '[' then
        match skipWs rest with
        | c2 :: r =>
          if c2 = ']' then some (.arr [], r)
          else (parseArrItems fuel (c2 :: r)).map (fun r => (.arr r.1, r.2))
        | [] => none
      else if c = obrace then
        match skipWs rest with
        | c2 :: r =>
          if c2 = cbrace then some (.obj [], r)
          else
            (parseObjItems fuel (c2 :: r)).map (fun r => (.obj (mkDict r.1), r.2))
        | [] => none
      else if c = 'n' then
        match rest with
        | 'u' :: 'l' :: 'l' :: r => some (.null, r)
        | _ => none
      else if c = 't' then
        match rest with
        | 'r' :: 'u' :: 'e' :: r => some (.bool true, r)
        | _ => none
      else if c = 'f' then
        match rest with
        | 'a' :: 'l' :: 's' :: 'e' :: r => some (.bool false, r)
        | _ => none
      else (parseNum (c :: rest)).map (fun r => (.num r.1, r.2))
/-- `JSONArray` after the first element position (non-empty array). -/
def parseArrItems : Nat → List Char → Option (List Json × List Char)
  | 0, _ => none
  | fuel + 1, s =>
    match parseVal fuel s with
    | none => none
    | some (v, r) =>
      match skipWs r with
      | c2 :: r2 =>
        if c2 = ',' then
          (parseArrItems fuel (skipWs r2)).map (fun t => (v :: t.1, t.2))
        else if c2 = ']' then some ([v], r2)
        else none
      | [] => none
/-- `JSONObject` at a key position (non-empty object). -/
def parseObjItems : Nat → List Char → Option (List (String × Json) × List Char)
  | 0, _ => none
  | fuel + 1, s =>
    match s with
    | [] => none
    | c :: rest =>
      if c = '"' then
        match parseStrBody rest.length rest with
        | none => none
        | some (k, r) =>
          match skipWs r with
          | c2 :: r2 =>
            if c2 = ':' then
              match parseVal fuel (skipWs r2) with
              | none => none
              | some (v, r3) =>
                match skipWs r3 with
                | c4 :: r4 =>
                  if c4 = ',' then
                    (parseObjItems fuel (skipWs r4)).map
                      (fun t => ((String.mk k, v) :: t.1, t.2))
                  else if c4 = cbrace then some ([(String.mk k, v)], r4)
                  else none
                | [] => none
            else none
          | [] => none
      else none
end

/-- `json.loads(content)`: skip whitespace, scan one value, and require
only whitespace to remain. -/
def loads (content : String) : Option Json :=
  let s := skipWs content.data
  match parseVal (s.length + 2) s with
  | some (v, r) => if (skipWs r).isEmpty then some v else none
  | none => none

mutual
/-- Parser fuel needed for a value serialised by `dumpsV`. -/
def needV : Json → Nat
  | .null => 1
  | .bool _ => 1
  | .num _ => 1
  | .str _ => 1
  | .arr [] => 1
  | .arr (x :: xs) => 1 + needL (x :: xs)
  | .obj [] => 1
  | .obj (m :: ms) => 1 + needM (m :: ms)
def needL : List Json → Nat
  | [] => 1
  | [x] => 1 + needV x
  | x :: xs => 1 + max (needV x) (needL xs)
def needM : List (String × Json) → Nat
  | [] => 1
  | [m] => 1 + needV m.2
  | m :: ms => 1 + max (needV m.2) (needM ms)
end

/-- What may legally follow a serialised value inside `dumps` output: a
comma, a closing bracket or brace, whitespace, or the end. -/
def goodFollow : List Char → Prop
  | [] => True
  | c :: _ => c = ',' ∨ c = ']' ∨ c = cbrace ∨ isJsonWs c = true

theorem digitChar_toNat (m : Nat) (h : m < 10) :
    (Char.ofNat (48 + m)).toNat = 48 + m := by
  interval_cases m <;> decide

theorem digitChar_isDigit (m : Nat) (h : m < 10) :
    isDigitC (Char.ofNat (48 + m)) = true := by
  simp only [isDigitC, digitChar_toNat m h, Bool.and_eq_true, decide_eq_true_eq]
  omega

theorem hexChar_hexVal (d : Nat) (h : d < 16) : hexVal (hexChar d) = some d := by
  interval_cases d <;> decide

theorem skipWs_cons_not (c : Char) (s : List Char) (h : isJsonWs c = false) :
    skipWs (c :: s) = c :: s := by
  simp [skipWs, List.dropWhile_cons, h]

theorem skipWs_append_ws (ws : List Char) (s : List Char)
    (h : ∀ c ∈ ws, isJsonWs c = true) : skipWs (ws ++ s) = skipWs s := by
  induction ws with
  | nil => rfl
  | cons c rest ih =>
    have hc : isJsonWs c = true := h c (List.mem_cons_self _ _)
    simp only [List.cons_append, skipWs, List.dropWhile_cons, hc, if_true]
    exact ih (fun c hc => h c (List.mem_cons_of_mem _ hc))

theorem nlInd_ws (level : Nat) : ∀ c ∈ nlInd level, isJsonWs c = true := by
  intro c hc
  rcases List.mem_cons.mp hc with h | h
  · subst h; rfl
  · rw [List.eq_of_mem_replicate h]; rfl

theorem skipWs_nlInd (level : Nat) (s : List Char) :
    skipWs (nlInd level ++ s) = skipWs s :=
  skipWs_append_ws (nlInd level) s (nlInd_ws level)

theorem natToCharsAux_irrel :
    ∀ (f1 : Nat), ∀ (n : Nat), n ≤ f1 → ∀ (f2 : Nat), n ≤ f2 →
    natToCharsAux f1 n = natToCharsAux f2 n := by
  intro f1
  induction f1 with
  | zero =>
    intro n h1 f2 _
    have hn : n = 0 := by omega
    subst hn
    cases f2 with
    | zero => rfl
    | succ f2 => simp [natToCharsAux]
  | succ f1 ih =>
    intro n h1 f2 h2
    cases f2 with
    | zero =>
      have hn : n = 0 := by omega
      subst hn
      simp [natToCharsAux]
    | succ f2 =>
      simp only [natToCharsAux]
      by_cases hlt : n < 10
      · rw [if_pos hlt, if_pos hlt]
      · rw [if_neg hlt, if_neg hlt]
        have hd : n / 10 ≤ f1 := by
          have := Nat.div_lt_self (show 0 < n by omega) (show 1 < 10 by omega)
          omega
        have hd2 : n / 10 ≤ f2 := by
          have := Nat.div_lt_self (show 0 < n by omega) (show 1 < 10 by omega)
          omega
        rw [ih (n / 10) hd f2 hd2]

theorem natToChars_eq (n : Nat) :
    natToChars n = if n < 10 then [Char.ofNat (48 + n)]
      else natToChars (n / 10) ++ [Char.ofNat (48 + n % 10)] := by
  unfold natToChars
  by_cases hlt : n < 10
  · rw [if_pos hlt]
    cases n with
    | zero => rfl
    | succ m => simp [natToCharsAux, hlt]
  · rw [if_neg hlt]
    cases n with
    | zero => omega
    | succ m =>
      simp only [natToCharsAux, hlt, if_false]
      have hd : (m + 1) / 10 ≤ m := by
        have := Nat.div_lt_self (show 0 < m + 1 by omega) (show 1 < 10 by omega)
        omega
      rw [natToCharsAux_irrel m ((m + 1) / 10) hd ((m + 1) / 10) (le_refl _)]

theorem natToChars_digits (n : Nat) :
    ∀ c ∈ natToChars n, 48 ≤ c.toNat ∧ c.toNat ≤ 57 := by
  induction n using Nat.strong_induction_on with
  | _ n ih =>
    intro c hc
    rw [natToChars_eq] at hc
    by_cases hlt : n < 10
    · rw [if_pos hlt] at hc
      rw [List.mem_singleton.mp hc, digitChar_toNat n hlt]
      omega
    · rw [if_neg hlt] at hc
      rcases List.mem_append.mp hc with h | h
      · exact ih (n / 10) (Nat.div_lt_self (by omega) (by omega)) c h
      · rw [List.mem_singleton.mp h,
          digitChar_toNat (n % 10) (Nat.mod_lt _ (by omega))]
        have := Nat.mod_lt n (show 0 < 10 by omega)
        omega

theorem natToChars_head (n : Nat) :
    ∃ c cs, natToChars n = c :: cs ∧ 48 ≤ c.toNat ∧ c.toNat ≤ 57 ∧
      (n ≠ 0 → c.toNat ≠ 48) := by
  induction n using Nat.strong_induction_on with
  | _ n ih =>
    rw [natToChars_eq]
    by_cases hlt : n < 10
    · rw [if_pos hlt]
      refine ⟨Char.ofNat (48 + n), [], rfl, ?_, ?_, ?_⟩
      · rw [digitChar_toNat n hlt]; omega
      · rw [digitChar_toNat n hlt]; omega
      · intro hn
        rw [digitChar_toNat n hlt]
        omega
    · rw [if_neg hlt]
      obtain ⟨c, cs, heq, h1, h2, h3⟩ :=
        ih (n / 10) (Nat.div_lt_self (by omega) (by omega))
      refine ⟨c, cs ++ [Char.ofNat (48 + n % 10)], by rw [heq]; rfl, h1, h2, ?_⟩
      intro _
      exact h3 (by omega)

theorem parseDigits_stop (rest : List Char) (acc : Nat)
    (h : ∀ c cs, rest = c :: cs → isDigitC c = false) :
    parseDigits rest acc = (acc, rest) := by
  cases rest with
  | nil => rfl
  | cons c cs =>
    simp [parseDigits, h c cs rfl]

theorem parseDigits_natToChars (n : Nat) :
    ∀ (acc : Nat) (rest : List Char),
    parseDigits (natToChars n ++ rest) acc =
      parseDigits rest (acc * 10 ^ (natToChars n).length + n) := by
  induction n using Nat.strong_induction_on with
  | _ n ih =>
    intro acc rest
    rw [natToChars_eq]
    by_cases hlt : n < 10
    · rw [if_pos hlt]
      simp only [List.singleton_append, List.length_singleton, parseDigits,
        digitChar_isDigit n hlt, if_true, digitChar_toNat n hlt]
      norm_num
    · rw [if_neg hlt]
      rw [List.append_assoc, List.singleton_append,
        ih (n / 10) (Nat.div_lt_self (by omega) (by omega))]
      have hm : n % 10 < 10 := Nat.mod_lt _ (by omega)
      simp only [parseDigits, digitChar_isDigit (n % 10) hm, if_true,
        digitChar_toNat (n % 10) hm]
      have harith :
          (acc * 10 ^ (natToChars (n / 10)).length + n / 10) * 10 +
              (48 + n % 10 - 48) =
            acc * 10 ^ (natToChars (n / 10) ++
              [Char.ofNat (48 + n % 10)]).length + n := by
        have hdm : 10 * (n / 10) + n % 10 = n := Nat.div_add_mod n 10
        have h48 : 48 + n % 10 - 48 = n % 10 := by omega
        rw [h48, List.length_append, List.length_singleton, pow_succ]
        calc (acc * 10 ^ (natToChars (n / 10)).length + n / 10) * 10 + n % 10
            = acc * (10 ^ (natToChars (n / 10)).length * 10) +
              (10 * (n / 10) + n % 10) := by ring
          _ = acc * (10 ^ (natToChars (n / 10)).length * 10) + n := by rw [hdm]
      rw [harith]

theorem jsonWs_cases (c : Char) (h : isJsonWs c = true) :
    c = ' ' ∨ c = '\t' ∨ c = '\n' ∨ c = '\r' := by
  simp only [isJsonWs, Bool.or_eq_true, decide_eq_true_eq] at h
  tauto

theorem gf_not_digit (rest : List Char) (h : goodFollow rest) :
    ∀ c cs, rest = c :: cs → isDigitC c = false := by
  intro c cs heq
  subst heq
  rcases h with h | h | h | h
  · subst h; rfl
  · subst h; rfl
  · subst h; rfl
  · rcases jsonWs_cases c h with h | h | h | h <;> (subst h; rfl)

theorem gf_not_float (rest : List Char) (h : goodFollow rest) :
    floatFollows rest = false := by
  cases rest with
  | nil => rfl
  | cons c cs =>
    rcases h with h | h | h | h
    · subst h; rfl
    · subst h; rfl
    · subst h; rfl
    · rcases jsonWs_cases c h with h | h | h | h <;> (subst h; rfl)

theorem parseNum_intRepr (n : Int) (rest : List Char) (h : goodFollow rest) :
    parseNum (intReprL n ++ rest) = some (n, rest) := by
  have hstop := parseDigits_stop rest 0
  by_cases hneg : n < 0
  · rw [intReprL, if_pos hneg]
    obtain ⟨c, cs, heq, h48, h57, hz⟩ := natToChars_head (-n).toNat
    have hnz : (-n).toNat ≠ 0 := by omega
    rw [List.cons_append, parseNum]
    rw [if_pos rfl]
    rw [heq, List.cons_append, parseIntPart]
    rw [if_neg (show ¬ c = '0' by
      intro hh; subst hh; exact (hz hnz) (by decide))]
    rw [if_pos (show isDigitC c = true by
      simp only [isDigitC, Bool.and_eq_true, decide_eq_true_eq]; omega)]
    rw [← List.cons_append, ← heq, parseDigits_natToChars]
    rw [parseDigits_stop rest _ (gf_not_digit rest h)]
    simp only [Nat.zero_mul, Nat.zero_add]
    rw [gf_not_float rest h]
    simp only [Bool.false_eq_true, if_false]
    have : ((-n).toNat : Int) = -n := Int.toNat_of_nonneg (by omega)
    rw [this]
    simp
  · rw [intReprL, if_neg hneg]
    by_cases hz0 : n.toNat = 0
    · have hn0 : n = 0 := by omega
      subst hn0
      show parseNum (natToChars 0 ++ rest) = some (0, rest)
      have h0 : natToChars 0 = ['0'] := rfl
      rw [h0, List.cons_append, parseNum]
      rw [if_neg (by decide), parseIntPart, if_pos rfl]
      simp only [List.nil_append]
      rw [gf_not_float rest h]
      simp
    · obtain ⟨c, cs, heq, h48, h57, hz⟩ := natToChars_head n.toNat
      rw [heq, List.cons_append, parseNum]
      rw [if_neg (show ¬ c = '-' by
        intro hh; subst hh; simp at h48)]
      rw [parseIntPart]
      rw [if_neg (show ¬ c = '0' by
        intro hh; subst hh; exact (hz hz0) (by decide))]
      rw [if_pos (show isDigitC c = true by
        simp only [isDigitC, Bool.and_eq_true, decide_eq_true_eq]; omega)]
      rw [← List.cons_append, ← heq, parseDigits_natToChars]
      rw [parseDigits_stop rest _ (gf_not_digit rest h)]
      simp only [Nat.zero_mul, Nat.zero_add]
      rw [gf_not_float rest h]
      simp only [Bool.false_eq_true, if_false]
      have : (n.toNat : Int) = n := Int.toNat_of_nonneg (by omega)
      rw [this]

theorem parseStrBody_escapeChar (c : Char) (t : List Char) (f : Nat) :
    parseStrBody (f + 1) (escapeChar c ++ t) =
      (parseStrBody f t).map (fun r => (c :: r.1, r.2)) := by
  unfold escapeChar
  split_ifs with h1 h2 h3 h4 h5 h6 h7 h8
  · subst h1; rfl
  · subst h2; rfl
  · subst h3; rfl
  · subst h4; rfl
  · subst h5; rfl
  · subst h6; rfl
  · subst h7; rfl
  · have e3 := hexChar_hexVal (c.toNat / 16) (by omega)
    have e4 := hexChar_hexVal (c.toNat % 16) (by omega)
    generalize hh3 : hexChar (c.toNat / 16) = h3c at e3 ⊢
    generalize hh4 : hexChar (c.toNat % 16) = h4c at e4 ⊢
    have step : parseStrBody (f + 1)
        (['\\', 'u', '0', '0', h3c, h4c] ++ t) =
        (match hex4 '0' '0' h3c h4c with
         | some cp =>
           if cp < 55296 then
             (parseStrBody f t).map (fun r => (Char.ofNat cp :: r.1, r.2))
           else none
         | none => none) := rfl
    rw [step]
    have hhex : hex4 '0' '0' h3c h4c =
        some (((0 * 16 + 0) * 16 + c.toNat / 16) * 16 + c.toNat % 16) := by
      simp only [hex4, e3, e4]
      rfl
    rw [hhex]
    have hcp : ((0 * 16 + 0) * 16 + c.toNat / 16) * 16 + c.toNat % 16 =
        c.toNat := by omega
    rw [hcp]
    dsimp only
    rw [if_pos (by omega), Char.ofNat_toNat]
  · rw [List.singleton_append]
    rw [parseStrBody.eq_def]
    dsimp only
    rw [if_neg h1, if_neg h2, if_neg (show ¬ c.toNat < 32 from h8)]

theorem parseStrBody_escapeStr (cs : List Char) :
    ∀ (rest : List Char) (fuel : Nat), (escapeStr cs).length + 1 ≤ fuel →
    parseStrBody fuel (escapeStr cs ++ '"' :: rest) = some (cs, rest) := by
  induction cs with
  | nil =>
    intro rest fuel h
    cases fuel with
    | zero => omega
    | succ f => rfl
  | cons c cs ih =>
    intro rest fuel h
    cases fuel with
    | zero => omega
    | succ f =>
      have hlen : 1 ≤ (escapeChar c).length := by
        unfold escapeChar
        split_ifs <;> simp
      rw [show escapeStr (c :: cs) = escapeChar c ++ escapeStr cs from rfl,
        List.append_assoc, parseStrBody_escapeChar]
      rw [ih rest f (by
        have : (escapeStr (c :: cs)).length =
            (escapeChar c).length + (escapeStr cs).length := by
          rw [show escapeStr (c :: cs) = escapeChar c ++ escapeStr cs from rfl]
          exact List.length_append _ _
        omega)]
      rfl

theorem jsize_pos (v : Json) : 1 ≤ jsize v := by
  cases v <;> simp [jsize]

theorem setA_not_contains {α : Type} (l : List (String × α)) (k : String)
    (v : α) (h : containsKey l k = false) : setA l k v = l ++ [(k, v)] := by
  induction l with
  | nil => rfl
  | cons e rest ih =>
    simp only [containsKey, List.any_cons, Bool.or_eq_false_iff,
      decide_eq_false_iff_not] at h
    rw [setA, if_neg h.1, List.cons_append,
      ih (by simp [containsKey, h.2])]

theorem containsKey_append {α : Type} (l1 l2 : List (String × α)) (k : String) :
    containsKey (l1 ++ l2) k = (containsKey l1 k || containsKey l2 k) := by
  simp [containsKey, List.any_append]

theorem mkDict_foldl_nodup :
    ∀ (ms : List (String × Json)) (acc : List (String × Json)),
    nodupKeys (ms.map Prod.fst) = true →
    (∀ m ∈ ms, containsKey acc m.1 = false) →
    ms.foldl (fun a m => setA a m.1 m.2) acc = acc ++ ms := by
  intro ms
  induction ms with
  | nil => intro acc _ _; simp
  | cons m rest ih =>
    intro acc hnd hfresh
    simp only [List.map_cons, nodupKeys, Bool.and_eq_true,
      Bool.not_eq_true'] at hnd
    rw [List.foldl_cons,
      setA_not_contains acc m.1 m.2 (hfresh m (List.mem_cons_self _ _))]
    rw [ih (acc ++ [(m.1, m.2)]) hnd.2 ?fresh]
    · simp
    case fresh =>
      intro m2 hm2
      rw [containsKey_append]
      have h1 : containsKey acc m2.1 = false :=
        hfresh m2 (List.mem_cons_of_mem _ hm2)
      have h2 : containsKey [(m.1, m.2)] m2.1 = false := by
        simp only [containsKey, List.any_cons, List.any_nil,
          Bool.or_false, decide_eq_false_iff_not]
        intro hh
        have hmem : m.1 ∈ rest.map Prod.fst := by
          rw [hh]
          exact List.mem_map_of_mem Prod.fst hm2
        have hc : (rest.map Prod.fst).contains m.1 = true := by
          rw [show (rest.map Prod.fst).contains m.1 =
            (rest.map Prod.fst).elem m.1 from rfl]
          exact List.elem_iff.mpr hmem
        rw [hnd.1] at hc
        exact Bool.false_ne_true hc
      rw [h1, h2]
      rfl

theorem mkDict_nodup (ms : List (String × Json))
    (h : nodupKeys (ms.map Prod.fst) = true) : mkDict ms = ms := by
  unfold mkDict
  rw [mkDict_foldl_nodup ms [] h (fun m _ => rfl)]
  rfl

/-- Python `str.strip()` whitespace. -/
def isPyWs (c : Char) : Bool :=
  c = ' ' || c = '\t' || c = '\n' || c = '\r' ||
    c = Char.ofNat 11 || c = Char.ofNat 12

theorem head_props_of_digit (c : Char) (h48 : 48 ≤ c.toNat)
    (h57 : c.toNat ≤ 57) :
    isJsonWs c = false ∧ isPyWs c = false ∧ c ≠ ']' := by
  refine ⟨?_, ?_, ?_⟩
  · simp only [isJsonWs, Bool.or_eq_false_iff, decide_eq_false_iff_not]
    refine ⟨⟨⟨?_, ?_⟩, ?_⟩, ?_⟩ <;> (intro hh; subst hh; revert h48 h57; decide)
  · simp only [isPyWs, Bool.or_eq_false_iff, decide_eq_false_iff_not]
    refine ⟨⟨⟨⟨⟨?_, ?_⟩, ?_⟩, ?_⟩, ?_⟩, ?_⟩ <;> (intro hh; subst hh; revert h48 h57; decide)
  · intro hh; subst hh; revert h48 h57; decide

theorem dumpsV_head (lvl : Nat) (v : Json) :
    ∃ c t, dumpsV lvl v = c :: t ∧ isJsonWs c = false ∧ isPyWs c = false ∧
      c ≠ ']' := by
  cases v with
  | null => exact ⟨'n', _, rfl, rfl, rfl, by decide⟩
  | bool b => cases b with
    | true => exact ⟨'t', _, rfl, rfl, rfl, by decide⟩
    | false => exact ⟨'f', _, rfl, rfl, rfl, by decide⟩
  | num n =>
    show ∃ c t, intReprL n = c :: t ∧ _
    unfold intReprL
    by_cases hneg : n < 0
    · rw [if_pos hneg]
      exact ⟨'-', _, rfl, rfl, rfl, by decide⟩
    · rw [if_neg hneg]
      obtain ⟨c, cs, heq, h48, h57, _⟩ := natToChars_head n.toNat
      obtain ⟨p1, p2, p3⟩ := head_props_of_digit c h48 h57
      exact ⟨c, cs, heq, p1, p2, p3⟩
  | str s => exact ⟨'"', _, rfl, rfl, rfl, by decide⟩
  | arr xs =>
    cases xs with
    | nil => exact ⟨'[', _, rfl, rfl, rfl, by decide⟩
    | cons x xs => exact ⟨'[', _, rfl, rfl, rfl, by decide⟩
  | obj ms =>
    cases ms with
    | nil => exact ⟨obrace, _, rfl, rfl, rfl, by decide⟩
    | cons m ms => exact ⟨obrace, _, rfl, rfl, rfl, by decide⟩

theorem needV_pos (v : Json) : 1 ≤ needV v := by
  cases v with
  | arr xs => cases xs <;> simp [needV]
  | obj ms => cases ms <;> simp [needV]
  | bool b => simp [needV]
  | _ => simp [needV]

theorem needL_pos (x : Json) (xs : List Json) : 1 ≤ needL (x :: xs) := by
  cases xs <;> simp [needL]

theorem needM_pos (m : String × Json) (ms : List (String × Json)) :
    1 ≤ needM (m :: ms) := by
  cases ms <;> simp [needM]

theorem skipWs_dumpsV (lvl : Nat) (v : Json) (t : List Char) :
    skipWs (dumpsV lvl v ++ t) = dumpsV lvl v ++ t := by
  obtain ⟨c, s, heq, hws, _, _⟩ := dumpsV_head lvl v
  rw [heq, List.cons_append, skipWs_cons_not _ _ hws]

theorem gf_close (ws rest : List Char) (h : ∀ c ∈ ws, isJsonWs c = true) :
    goodFollow (ws ++ ']' :: rest) := by
  cases ws with
  | nil => exact Or.inr (Or.inl rfl)
  | cons c cs =>
    exact Or.inr (Or.inr (Or.inr (h c (List.mem_cons_self _ _))))

theorem gf_closeB (ws rest : List Char) (h : ∀ c ∈ ws, isJsonWs c = true) :
    goodFollow (ws ++ cbrace :: rest) := by
  cases ws with
  | nil => exact Or.inr (Or.inr (Or.inl rfl))
  | cons c cs =>
    exact Or.inr (Or.inr (Or.inr (h c (List.mem_cons_self _ _))))

theorem gf_arrRest (lvl : Nat) (xs : List Json) (ws rest : List Char)
    (h : ∀ c ∈ ws, isJsonWs c = true) :
    goodFollow (dumpsArrRest lvl xs ++ (ws ++ ']' :: rest)) := by
  cases xs with
  | nil =>
    show goodFollow ([] ++ (ws ++ ']' :: rest))
    rw [List.nil_append]
    exact gf_close ws rest h
  | cons y ys => exact Or.inl rfl

theorem gf_objRest (lvl : Nat) (ms : List (String × Json)) (ws rest : List Char)
    (h : ∀ c ∈ ws, isJsonWs c = true) :
    goodFollow (dumpsObjRest lvl ms ++ (ws ++ cbrace :: rest)) := by
  cases ms with
  | nil =>
    show goodFollow ([] ++ (ws ++ cbrace :: rest))
    rw [List.nil_append]
    exact gf_closeB ws rest h
  | cons m ms => exact Or.inl rfl

theorem need_le_dumps : ∀ N : Nat,
    (∀ v, jsize v ≤ N → ∀ lvl, needV v ≤ (dumpsV lvl v).length + 1) ∧
    (∀ x xs, jsize x + jsizeList xs ≤ N → ∀ lvl,
      needL (x :: xs) ≤
        (dumpsV lvl x).length + (dumpsArrRest lvl xs).length + 2) ∧
    (∀ (m : String × Json) ms, jsize m.2 + jsizeMembers ms ≤ N → ∀ lvl,
      needM (m :: ms) ≤
        (dumpsMember lvl m).length + (dumpsObjRest lvl ms).length + 2) := by
  intro N
  induction N using Nat.strong_induction_on with
  | _ N ih =>
  have hmem : ∀ (lvl : Nat) (m : String × Json),
      (dumpsV lvl m.2).length ≤ (dumpsMember lvl m).length := by
    intro lvl m
    obtain ⟨k, w⟩ := m
    simp [dumpsMember]
    omega
  have h1 : ∀ v, jsize v ≤ N → ∀ lvl,
      needV v ≤ (dumpsV lvl v).length + 1 := by
    intro v hsz lvl
    cases v with
    | null => simp [needV, dumpsV]
    | bool b => cases b <;> simp [needV, dumpsV]
    | num n => simp [needV]
    | str s => simp [needV]
    | arr xs =>
      cases xs with
      | nil => simp [needV, dumpsV, dumpsArr]
      | cons x xs =>
        have hszx : jsize x + jsizeList xs ≤ N - 1 := by
          simp only [jsize, jsizeList] at hsz ⊢
          omega
        have hN : 1 ≤ N := by
          have := jsize_pos (.arr (x :: xs))
          omega
        have hrec := (ih (N - 1) (by omega)).2.1 x xs hszx (lvl + 1)
        simp only [needV, dumpsV, dumpsArr, List.length_cons,
          List.length_append, nlInd, indentC, List.length_replicate,
          List.length_singleton] at *
        omega
    | obj ms =>
      cases ms with
      | nil => simp [needV, dumpsV, dumpsObj]
      | cons m ms =>
        have hszm : jsize m.2 + jsizeMembers ms ≤ N - 1 := by
          simp only [jsize, jsizeMembers] at hsz ⊢
          omega
        have hN : 1 ≤ N := by
          have := jsize_pos (.obj (m :: ms))
          omega
        have hrec := (ih (N - 1) (by omega)).2.2 m ms hszm (lvl + 1)
        simp only [needV, dumpsV, dumpsObj, List.length_cons,
          List.length_append, nlInd, indentC, List.length_replicate,
          List.length_singleton] at *
        omega
  refine ⟨h1, ?_, ?_⟩
  · intro x xs hsz lvl
    cases xs with
    | nil =>
      have hx := h1 x (by simpa [jsizeList] using hsz) lvl
      simp only [needL, dumpsArrRest, List.length_nil]
      omega
    | cons y ys =>
      have hszx : jsize x ≤ N := by
        have h2 := jsize_pos y
        simp only [jsizeList] at hsz
        omega
      have hx := h1 x hszx lvl
      have hszy : jsize y + jsizeList ys ≤ N - 1 := by
        have h2 := jsize_pos x
        simp only [jsizeList] at hsz
        omega
      have hN : 1 ≤ N := by
        have := jsize_pos x
        omega
      have hrec := (ih (N - 1) (by omega)).2.1 y ys hszy lvl
      simp only [needL, dumpsArrRest, List.length_cons, List.length_append,
        nlInd, indentC, List.length_replicate] at *
      omega
  · intro m ms hsz lvl
    cases ms with
    | nil =>
      have hx := h1 m.2 (by simpa [jsizeMembers] using hsz) lvl
      have hm := hmem lvl m
      simp only [needM, dumpsObjRest, List.length_nil]
      omega
    | cons m2 ms =>
      have hszm : jsize m.2 ≤ N := by
        have h2 := jsize_pos m2.2
        simp only [jsizeMembers] at hsz
        omega
      have hx := h1 m.2 hszm lvl
      have hm := hmem lvl m
      have hm2 := hmem lvl m2
      have hszm2 : jsize m2.2 + jsizeMembers ms ≤ N - 1 := by
        have h2 := jsize_pos m.2
        simp only [jsizeMembers] at hsz
        omega
      have hN : 1 ≤ N := by
        have := jsize_pos m.2
        omega
      have hrec := (ih (N - 1) (by omega)).2.2 m2 ms hszm2 lvl
      simp only [needM, dumpsObjRest, List.length_cons, List.length_append,
        nlInd, indentC, List.length_replicate] at *
      omega

theorem parseVal_str_branch (f : Nat) (t : List Char) :
    parseVal (f + 1) ('"' :: t) =
      (parseStrBody t.length t).map (fun r => (.str (String.mk r.1), r.2)) := by
  simp only [parseVal]
  rfl

theorem parseVal_arr_branch (f : Nat) (t : List Char) :
    parseVal (f + 1) ('[' :: t) =
      (match skipWs t with
       | c2 :: r =>
         if c2 = ']' then some (.arr [], r)
         else (parseArrItems f (c2 :: r)).map (fun r => (.arr r.1, r.2))
       | [] => none) := by
  simp only [parseVal]
  rfl

theorem parseVal_obj_branch (f : Nat) (t : List Char) :
    parseVal (f + 1) (obrace :: t) =
      (match skipWs t with
       | c2 :: r =>
         if c2 = cbrace then some (.obj [], r)
         else (parseObjItems f (c2 :: r)).map
           (fun r => (.obj (mkDict r.1), r.2))
       | [] => none) := by
  simp only [parseVal]
  rfl

theorem parseVal_num_branch (f : Nat) (c : Char) (t : List Char)
    (h1 : ¬ c = '"') (h2 : ¬ c = '[') (h3 : ¬ c = obrace) (h4 : ¬ c = 'n')
    (h5 : ¬ c = 't') (h6 : ¬ c = 'f') :
    parseVal (f + 1) (c :: t) =
      (parseNum (c :: t)).map (fun r => (.num r.1, r.2)) := by
  simp only [parseVal]
  rw [if_neg h1, if_neg h2, if_neg h3, if_neg h4, if_neg h5, if_neg h6]

theorem parseArrItems_step (f : Nat) (s : List Char) :
    parseArrItems (f + 1) s =
      (match parseVal f s with
       | none => none
       | some (v, r) =>
         match skipWs r with
         | c2 :: r2 =>
           if c2 = ',' then
             (parseArrItems f (skipWs r2)).map (fun t => (v :: t.1, t.2))
           else if c2 = ']' then some ([v], r2)
           else none
         | [] => none) := by
  rw [parseArrItems.eq_def]

theorem parseObjItems_key_branch (f : Nat) (t : List Char) :
    parseObjItems (f + 1) ('"' :: t) =
      (match parseStrBody t.length t with
       | none => none
       | some (k, r) =>
         match skipWs r with
         | c2 :: r2 =>
           if c2 = ':' then
             match parseVal f (skipWs r2) with
             | none => none
             | some (v, r3) =>
               match skipWs r3 with
               | c4 :: r4 =>
                 if c4 = ',' then
                   (parseObjItems f (skipWs r4)).map
                     (fun t => ((String.mk k, v) :: t.1, t.2))
                 else if c4 = cbrace then some ([(String.mk k, v)], r4)
                 else none
               | [] => none
           else none
         | [] => none) := by
  rw [parseObjItems.eq_def]
  dsimp only
  rw [if_pos rfl]

theorem num_head_not_special (c : Char)
    (hc : c = '-' ∨ (48 ≤ c.toNat ∧ c.toNat ≤ 57)) :
    ¬ c = '"' ∧ ¬ c = '[' ∧ ¬ c = obrace ∧ ¬ c = 'n' ∧ ¬ c = 't' ∧
      ¬ c = 'f' := by
  rcases hc with hc | ⟨h48, h57⟩
  · subst hc
    exact ⟨by decide, by decide, by decide, by decide, by decide, by decide⟩
  · refine ⟨?_, ?_, ?_, ?_, ?_, ?_⟩ <;>
      (intro hh; subst hh; revert h48 h57; decide)

theorem intReprL_head (n : Int) :
    ∃ c t, intReprL n = c :: t ∧
      (c = '-' ∨ (48 ≤ c.toNat ∧ c.toNat ≤ 57)) := by
  unfold intReprL
  by_cases hneg : n < 0
  · rw [if_pos hneg]
    exact ⟨'-', _, rfl, Or.inl rfl⟩
  · rw [if_neg hneg]
    obtain ⟨c, cs, heq, h48, h57, _⟩ := natToChars_head n.toNat
    exact ⟨c, cs, heq, Or.inr ⟨h48, h57⟩⟩

/-- Round trip of the scanner over the serialiser, by strong induction on
the structural size: a serialised value parses back to itself, and the
serialised item lists of non-empty arrays and objects parse back inside
their brackets. -/
theorem parse_dumps_aux : ∀ N : Nat,
    (∀ v, jsize v ≤ N → jwf v = true → ∀ lvl fuel rest, needV v ≤ fuel →
      goodFollow rest →
      parseVal fuel (dumpsV lvl v ++ rest) = some (v, rest)) ∧
    (∀ x xs, jsize x + jsizeList xs ≤ N → jwf x = true → jwfList xs = true →
      ∀ lvl fuel ws rest, (∀ c ∈ ws, isJsonWs c = true) →
      needL (x :: xs) ≤ fuel → goodFollow rest →
      parseArrItems fuel
        (dumpsV lvl x ++ (dumpsArrRest lvl xs ++ (ws ++ ']' :: rest))) =
        some (x :: xs, rest)) ∧
    (∀ (m : String × Json) ms, jsize m.2 + jsizeMembers ms ≤ N →
      jwf m.2 = true → jwfMembers ms = true →
      ∀ lvl fuel ws rest, (∀ c ∈ ws, isJsonWs c = true) →
      needM (m :: ms) ≤ fuel → goodFollow rest →
      parseObjItems fuel
        (dumpsMember lvl m ++ (dumpsObjRest lvl ms ++ (ws ++ cbrace :: rest))) =
        some (m :: ms, rest)) := by
  intro N
  induction N using Nat.strong_induction_on with
  | _ N ih =>
  have h1 : ∀ v, jsize v ≤ N → jwf v = true →
      ∀ lvl fuel rest, needV v ≤ fuel → goodFollow rest →
      parseVal fuel (dumpsV lvl v ++ rest) = some (v, rest) := by
    intro v hsz hwf lvl fuel rest hfuel hgf
    have hf1 : 1 ≤ fuel := le_trans (needV_pos v) hfuel
    obtain ⟨f, rfl⟩ : ∃ f, fuel = f + 1 := ⟨fuel - 1, by omega⟩
    cases v with
    | null =>
      show parseVal (f + 1) ('n' :: 'u' :: 'l' :: 'l' :: rest) =
        some (.null, rest)
      simp only [parseVal]
      rfl
    | bool b =>
      cases b with
      | true =>
        show parseVal (f + 1) ('t' :: 'r' :: 'u' :: 'e' :: rest) =
          some (.bool true, rest)
        simp only [parseVal]
        rfl
      | false =>
        show parseVal (f + 1) ('f' :: 'a' :: 'l' :: 's' :: 'e' :: rest) =
          some (.bool false, rest)
        simp only [parseVal]
        rfl
    | num n =>
      show parseVal (f + 1) (intReprL n ++ rest) = some (.num n, rest)
      obtain ⟨c, t2, heq, hc⟩ := intReprL_head n
      obtain ⟨hn1, hn2, hn3, hn4, hn5, hn6⟩ := num_head_not_special c hc
      rw [heq, List.cons_append,
        parseVal_num_branch f c (t2 ++ rest) hn1 hn2 hn3 hn4 hn5 hn6,
        ← List.cons_append, ← heq, parseNum_intRepr n rest hgf]
      rfl
    | str s =>
      show parseVal (f + 1)
        ('"' :: ((escapeStr s.data ++ ['"']) ++ rest)) = some (.str s, rest)
      rw [parseVal_str_branch]
      have hre : (escapeStr s.data ++ ['"']) ++ rest =
          escapeStr s.data ++ '"' :: rest := by
        simp [List.append_assoc]
      rw [hre, parseStrBody_escapeStr s.data rest _ (by
        simp only [List.length_append, List.length_cons]
        omega)]
      rfl
    | arr xs =>
      cases xs with
      | nil =>
        show parseVal (f + 1) ('[' :: ']' :: rest) = some (.arr [], rest)
        rw [parseVal_arr_branch, skipWs_cons_not ']' rest (by decide)]
        rfl
      | cons x xs =>
        simp only [dumpsV, dumpsArr, List.append_assoc, List.cons_append,
          List.singleton_append, List.nil_append]
        rw [parseVal_arr_branch, skipWs_nlInd, skipWs_dumpsV]
        obtain ⟨c, t2, heqx, hwsx, hpyx, hnbr⟩ := dumpsV_head (lvl + 1) x
        rw [heqx, List.cons_append]
        dsimp only
        rw [if_neg hnbr, ← List.cons_append, ← heqx]
        simp only [jwf, jwfList, Bool.and_eq_true] at hwf
        have hszlt : jsize x + jsizeList xs ≤ N - 1 := by
          simp only [jsize, jsizeList] at hsz
          omega
        have hNpos : 1 ≤ N := le_trans (jsize_pos _) hsz
        have hneed : needL (x :: xs) ≤ f := by
          simp only [needV] at hfuel
          omega
        rw [(ih (N - 1) (by omega)).2.1 x xs hszlt hwf.1 hwf.2 (lvl + 1) f
          (nlInd lvl) rest (nlInd_ws lvl) hneed hgf]
        rfl
    | obj ms =>
      cases ms with
      | nil =>
        show parseVal (f + 1) (obrace :: cbrace :: rest) = some (.obj [], rest)
        rw [parseVal_obj_branch, skipWs_cons_not cbrace rest (by decide)]
        rfl
      | cons m ms =>
        simp only [dumpsV, dumpsObj, List.append_assoc, List.cons_append,
          List.singleton_append, List.nil_append]
        rw [parseVal_obj_branch, skipWs_nlInd]
        obtain ⟨k, w⟩ := m
        have hmem : dumpsMember (lvl + 1) (k, w) =
            '"' :: (escapeStr k.data ++ '"' :: ':' :: ' ' :: dumpsV (lvl + 1) w) :=
          rfl
        rw [hmem, List.cons_append, skipWs_cons_not '"' _ (by decide)]
        dsimp only
        rw [if_neg (by decide), ← List.cons_append, ← hmem]
        simp only [jwf, jwfMembers, Bool.and_eq_true] at hwf
        have hszlt : jsize w + jsizeMembers ms ≤ N - 1 := by
          simp only [jsize, jsizeMembers] at hsz
          omega
        have hNpos : 1 ≤ N := le_trans (jsize_pos _) hsz
        have hneed : needM ((k, w) :: ms) ≤ f := by
          simp only [needV] at hfuel
          omega
        rw [(ih (N - 1) (by omega)).2.2 (k, w) ms hszlt hwf.2.1 hwf.2.2
          (lvl + 1) f (nlInd lvl) rest (nlInd_ws lvl) hneed hgf]
        have hnd : nodupKeys (((k, w) :: ms).map Prod.fst) = true := hwf.1
        show some (Json.obj (mkDict ((k, w) :: ms)), rest) =
          some (Json.obj ((k, w) :: ms), rest)
        rw [mkDict_nodup _ hnd]
  refine ⟨h1, ?_, ?_⟩
  · intro x xs hsz hwfx hwfxs lvl fuel ws rest hws hfuel hgf
    have hf1 : 1 ≤ fuel := le_trans (needL_pos x xs) hfuel
    obtain ⟨f, rfl⟩ : ∃ f, fuel = f + 1 := ⟨fuel - 1, by omega⟩
    rw [parseArrItems_step]
    have hgfT : goodFollow (dumpsArrRest lvl xs ++ (ws ++ ']' :: rest)) :=
      gf_arrRest lvl xs ws rest hws
    have hszx : jsize x ≤ N := by omega
    have hneedx : needV x ≤ f := by
      cases xs with
      | nil => simp only [needL] at hfuel; omega
      | cons y ys => simp only [needL] at hfuel; omega
    rw [h1 x hszx hwfx lvl f _ hneedx hgfT]
    dsimp only
    cases xs with
    | nil =>
      have hT : skipWs (dumpsArrRest lvl ([] : List Json) ++
          (ws ++ ']' :: rest)) = ']' :: rest := by
        show skipWs ([] ++ (ws ++ ']' :: rest)) = ']' :: rest
        rw [List.nil_append, skipWs_append_ws ws _ hws,
          skipWs_cons_not _ _ (by decide)]
      rw [hT]
      dsimp only
      rw [if_neg (by decide), if_pos rfl]
    | cons y ys =>
      have hT : skipWs (dumpsArrRest lvl (y :: ys) ++ (ws ++ ']' :: rest)) =
          ',' :: ((nlInd lvl ++ dumpsV lvl y ++ dumpsArrRest lvl ys) ++
            (ws ++ ']' :: rest)) := by
        show skipWs (',' :: ((nlInd lvl ++ dumpsV lvl y ++ dumpsArrRest lvl ys)
          ++ (ws ++ ']' :: rest))) = _
        exact skipWs_cons_not _ _ (by decide)
      rw [hT]
      dsimp only
      rw [if_pos rfl]
      have hR : skipWs ((nlInd lvl ++ dumpsV lvl y ++ dumpsArrRest lvl ys) ++
          (ws ++ ']' :: rest)) =
          dumpsV lvl y ++ (dumpsArrRest lvl ys ++ (ws ++ ']' :: rest)) := by
        have hre : (nlInd lvl ++ dumpsV lvl y ++ dumpsArrRest lvl ys) ++
            (ws ++ ']' :: rest) =
            nlInd lvl ++ (dumpsV lvl y ++
              (dumpsArrRest lvl ys ++ (ws ++ ']' :: rest))) := by
          simp [List.append_assoc]
        rw [hre, skipWs_nlInd, skipWs_dumpsV]
      rw [hR]
      simp only [jwfList, Bool.and_eq_true] at hwfxs
      have hjx : 1 ≤ jsize x := jsize_pos x
      simp only [jsizeList] at hsz
      have hneedy : needL (y :: ys) ≤ f := by
        simp only [needL] at hfuel
        omega
      rw [(ih (N - 1) (by omega)).2.1 y ys (by omega) hwfxs.1 hwfxs.2 lvl f
        ws rest hws hneedy hgf]
      rfl
  · intro m ms hsz hwfm hwfms lvl fuel ws rest hws hfuel hgf
    obtain ⟨k, w⟩ := m
    have hf1 : 1 ≤ fuel := le_trans (needM_pos _ _) hfuel
    obtain ⟨f, rfl⟩ : ∃ f, fuel = f + 1 := ⟨fuel - 1, by omega⟩
    show parseObjItems (f + 1)
      ('"' :: ((escapeStr k.data ++ '"' :: ':' :: ' ' :: dumpsV lvl w) ++
        (dumpsObjRest lvl ms ++ (ws ++ cbrace :: rest)))) = _
    rw [parseObjItems_key_branch]
    have hre : (escapeStr k.data ++ '"' :: ':' :: ' ' :: dumpsV lvl w) ++
        (dumpsObjRest lvl ms ++ (ws ++ cbrace :: rest)) =
        escapeStr k.data ++ '"' :: (':' :: ' ' ::
          (dumpsV lvl w ++ (dumpsObjRest lvl ms ++ (ws ++ cbrace :: rest)))) := by
      simp [List.append_assoc]
    rw [hre, parseStrBody_escapeStr k.data _ _ (by
      simp only [List.length_append, List.length_cons]
      omega)]
    dsimp only
    rw [skipWs_cons_not ':' _ (by decide)]
    dsimp only
    rw [if_pos rfl]
    have hsp : skipWs (' ' ::
        (dumpsV lvl w ++ (dumpsObjRest lvl ms ++ (ws ++ cbrace :: rest)))) =
        dumpsV lvl w ++ (dumpsObjRest lvl ms ++ (ws ++ cbrace :: rest)) := by
      rw [show (' ' :: (dumpsV lvl w ++ (dumpsObjRest lvl ms ++
          (ws ++ cbrace :: rest)))) = [' '] ++ (dumpsV lvl w ++
          (dumpsObjRest lvl ms ++ (ws ++ cbrace :: rest))) from rfl,
        skipWs_append_ws _ _ (by
          intro c hc
          simp only [List.mem_singleton] at hc
          subst hc
          rfl),
        skipWs_dumpsV]
    rw [hsp]
    have hgfT : goodFollow (dumpsObjRest lvl ms ++ (ws ++ cbrace :: rest)) :=
      gf_objRest lvl ms ws rest hws
    have hszw : jsize w ≤ N := by
      simp only at hsz
      omega
    have hneedw : needV w ≤ f := by
      cases ms with
      | nil => simp only [needM] at hfuel; omega
      | cons m2 ms2 => simp only [needM] at hfuel; omega
    rw [h1 w hszw hwfm lvl f _ hneedw hgfT]
    dsimp only
    cases ms with
    | nil =>
      have hT : skipWs (dumpsObjRest lvl ([] : List (String × Json)) ++
          (ws ++ cbrace :: rest)) = cbrace :: rest := by
        show skipWs ([] ++ (ws ++ cbrace :: rest)) = cbrace :: rest
        rw [List.nil_append, skipWs_append_ws ws _ hws,
          skipWs_cons_not _ _ (by decide)]
      rw [hT]
      dsimp only
      rw [if_neg (by decide), if_pos rfl]
    | cons m2 ms2 =>
      have hT : skipWs (dumpsObjRest lvl (m2 :: ms2) ++
          (ws ++ cbrace :: rest)) =
          ',' :: ((nlInd lvl ++ dumpsMember lvl m2 ++ dumpsObjRest lvl ms2) ++
            (ws ++ cbrace :: rest)) := by
        show skipWs (',' :: ((nlInd lvl ++ dumpsMember lvl m2 ++
          dumpsObjRest lvl ms2) ++ (ws ++ cbrace :: rest))) = _
        exact skipWs_cons_not _ _ (by decide)
      rw [hT]
      dsimp only
      rw [if_pos rfl]
      obtain ⟨k2, w2⟩ := m2
      have hR : skipWs ((nlInd lvl ++ dumpsMember lvl (k2, w2) ++
          dumpsObjRest lvl ms2) ++ (ws ++ cbrace :: rest)) =
          dumpsMember lvl (k2, w2) ++
            (dumpsObjRest lvl ms2 ++ (ws ++ cbrace :: rest)) := by
        have hre2 : (nlInd lvl ++ dumpsMember lvl (k2, w2) ++
            dumpsObjRest lvl ms2) ++ (ws ++ cbrace :: rest) =
            nlInd lvl ++ (dumpsMember lvl (k2, w2) ++
              (dumpsObjRest lvl ms2 ++ (ws ++ cbrace :: rest))) := by
          simp [List.append_assoc]
        rw [hre2, skipWs_nlInd]
        rw [show dumpsMember lvl (k2, w2) ++
            (dumpsObjRest lvl ms2 ++ (ws ++ cbrace :: rest)) =
            '"' :: ((escapeStr k2.data ++ '"' :: ':' :: ' ' :: dumpsV lvl w2) ++
              (dumpsObjRest lvl ms2 ++ (ws ++ cbrace :: rest))) from rfl,
          skipWs_cons_not '"' _ (by decide)]
      rw [hR]
      simp only [jwfMembers, Bool.and_eq_true] at hwfms
      have hjw : 1 ≤ jsize w := jsize_pos w
      simp only [jsizeMembers] at hsz
      have hneed2 : needM ((k2, w2) :: ms2) ≤ f := by
        simp only [needM] at hfuel
        omega
      rw [(ih (N - 1) (by omega)).2.2 (k2, w2) ms2 (by simp only; omega)
        hwfms.1 hwfms.2 lvl f ws rest hws hneed2 hgf]
      rfl

/-- `json.loads` inverts `json.dumps` on every value whose objects have
distinct keys. -/
theorem loads_dumps (v : Json) (h : jwf v = true) : loads (dumps v) = some v := by
  show (match parseVal ((skipWs (dumpsV 0 v)).length + 2) (skipWs (dumpsV 0 v))
      with
    | some (v, r) => if (skipWs r).isEmpty then some v else none
    | none => none) = some v
  have hself : skipWs (dumpsV 0 v) = dumpsV 0 v := by
    have h2 := skipWs_dumpsV 0 v []
    simpa using h2
  have hneed : needV v ≤ (dumpsV 0 v).length + 2 := by
    have h2 := (need_le_dumps (jsize v)).1 v (le_refl _) 0
    omega
  have hP := (parse_dumps_aux (jsize v)).1 v (le_refl _) h 0
    ((dumpsV 0 v).length + 2) [] hneed trivial
  rw [List.append_nil] at hP
  rw [hself, hP]
  rfl

/-! ## `safe_json_save` / `safe_json_load` over an abstract file system -/

/-- `atomic_write`'s temp path: a dot-prefixed sibling with a `.tmp`
suffix (the pid and thread id only keep it unique; the model needs just
a name distinct from the target). -/
def tmpName (p : String) : String := "." ++ p ++ ".tmp"

theorem tmpName_ne (p : String) : tmpName p ≠ p := by
  intro h
  have hlen := congrArg String.length h
  rw [tmpName, String.length_append, String.length_append] at hlen
  have h1 : ("." : String).length = 1 := rfl
  have h4 : (".tmp" : String).length = 4 := rfl
  omega

/-- Which of `safe_json_save`'s fallible steps succeed: acquiring the
exclusive file lock, writing and syncing the temp file, and
`_safe_replace`'s rename. -/
structure SaveOracle where
  lockOk : Bool
  writeOk : Bool
  replaceOk : Bool

/-- `safe_json_save(path, data)` over a file system `fs` mapping paths to
contents.  Lock timeout fails before any file is touched; a failed write
or failed replace raises, `atomic_write` removes the temp file, and the
`except` clause returns `False`; on success `_safe_replace` atomically
renames the temp file onto the target. -/
def saveJson (o : SaveOracle) (fs : String → Option String) (p : String)
    (v : Json) : Bool × (String → Option String) :=
  if o.lockOk = false then (false, fs)
  else if o.writeOk = false then
    (false, fun q => if q = tmpName p then none else fs q)
  else if o.replaceOk = false then
    (false, fun q => if q = tmpName p then none else fs q)
  else
    (true, fun q =>
      if q = p then some (dumps v)
      else if q = tmpName p then none else fs q)

/-- `safe_json_load(path, default)`: missing file, blank content
(`content.strip()` falsy), a lock timeout, or a parse error all return
the default. -/
def loadJson (lockOk : Bool) (fs : String → Option String) (p : String)
    (dflt : Json) : Json :=
  match fs p with
  | none => dflt
  | some content =>
    if lockOk = false then dflt
    else if content.data.all isPyWs then dflt
    else
      match loads content with
      | some j => j
      | none => dflt

/-- C5: a `safe_json_save` that returns true is read back verbatim by
`safe_json_load`; a failed save leaves the target path untouched (so a
subsequent load returns the prior contents, or the default when no prior
file exists) and, whenever the save got past the lock, the temp file is
gone. -/
theorem save_json_load_json_roundtrip (o : SaveOracle)
    (fs : String → Option String) (p : String) (v dflt : Json)
    (hwf : jwf v = true) :
    ((saveJson o fs p v).1 = true →
      loadJson true (saveJson o fs p v).2 p dflt = v) ∧
    ((saveJson o fs p v).1 = false →
      (saveJson o fs p v).2 p = fs p ∧
      loadJson true (saveJson o fs p v).2 p dflt = loadJson true fs p dflt ∧
      (o.lockOk = true → (saveJson o fs p v).2 (tmpName p) = none)) := by
  have hne : ¬ p = tmpName p := fun h => tmpName_ne p h.symm
  constructor
  · intro hok
    by_cases hl : o.lockOk = false
    · rw [saveJson, if_pos hl] at hok
      exact Bool.noConfusion hok
    by_cases hw : o.writeOk = false
    · rw [saveJson, if_neg hl, if_pos hw] at hok
      exact Bool.noConfusion hok
    by_cases hr : o.replaceOk = false
    · rw [saveJson, if_neg hl, if_neg hw, if_pos hr] at hok
      exact Bool.noConfusion hok
    rw [saveJson, if_neg hl, if_neg hw, if_neg hr]
    show loadJson true (fun q => if q = p then some (dumps v)
      else if q = tmpName p then none else fs q) p dflt = v
    have hallws : (dumps v).data.all isPyWs = false := by
      obtain ⟨c, t, heq, _, hpy, _⟩ := dumpsV_head 0 v
      show (dumpsV 0 v).all isPyWs = false
      rw [heq, List.all_cons, hpy, Bool.false_and]
    rw [loadJson, if_pos rfl]
    dsimp only
    rw [if_neg (by decide), hallws, if_neg (by decide),
      loads_dumps v hwf]
  · intro hfail
    by_cases hl : o.lockOk = false
    · rw [saveJson, if_pos hl]
      refine ⟨rfl, rfl, fun hlt => ?_⟩
      rw [hlt] at hl
      exact Bool.noConfusion hl
    by_cases hw : o.writeOk = false
    · rw [saveJson, if_neg hl, if_pos hw]
      refine ⟨?_, ?_, fun _ => ?_⟩
      · show (if p = tmpName p then none else fs p) = fs p
        rw [if_neg hne]
      · rw [loadJson, loadJson]
        dsimp only
        rw [if_neg hne]
      · show (if tmpName p = tmpName p then none else fs (tmpName p)) = none
        rw [if_pos rfl]
    by_cases hr : o.replaceOk = false
    · rw [saveJson, if_neg hl, if_neg hw, if_pos hr]
      refine ⟨?_, ?_, fun _ => ?_⟩
      · show (if p = tmpName p then none else fs p) = fs p
        rw [if_neg hne]
      · rw [loadJson, loadJson]
        dsimp only
        rw [if_neg hne]
      · show (if tmpName p = tmpName p then none else fs (tmpName p)) = none
        rw [if_pos rfl]
    rw [saveJson, if_neg hl, if_neg hw, if_neg hr] at hfail
    exact Bool.noConfusion hfail

/-- C5 witness: a concrete fully-successful save of `{"key": "value"}`
into an empty file system loads back to the same value. -/
theorem save_json_load_json_roundtrip_witness :
    jwf (Json.obj [("key", Json.str "value")]) = true ∧
    loadJson true (saveJson ⟨true, true, true⟩ (fun _ => none) "data.json"
        (Json.obj [("key", Json.str "value")])).2 "data.json" Json.null =
      Json.obj [("key", Json.str "value")] :=
  ⟨by decide,
    (save_json_load_json_roundtrip ⟨true, true, true⟩ (fun _ => none)
      "data.json" (Json.obj [("key", Json.str "value")]) Json.null
      (by decide)).1 (by decide)⟩
